import Mathlib

/-!
# Verification of the `bcmp` byte-comparison library

Shallow embedding of the `bcmp` Rust crate (files `lib.rs`, `hashmatch.rs`,
`treematch.rs`, `ukkonen.rs`) together with proofs and refutations of the
specification claims.

Bytes are modelled as `Fin 256` (Rust `u8`), indices and lengths as `Nat`
(Rust `usize`, with subtraction underflow modelled explicitly where the
claims depend on it), and diagonals as `Int` (Rust `isize`).  Fallible
operations (Rust panics: index out of bounds, `unwrap` on `None`,
checked-arithmetic underflow) are modelled in the `Option` monad, `none`
standing for a panic.
-/

namespace Bcmp

/-- A byte, i.e. Rust `u8`. -/
abbrev Byte := Fin 256

/-- Rust `usize::MAX`, used by `ukkonen.rs` as the open end marker of leaves. -/
def USIZE_MAX : Nat := 2 ^ 64 - 1

/-- `Match` from `lib.rs`: a matching substring between two pieces of data. -/
structure Match where
  first_pos : Nat
  second_pos : Nat
  length : Nat
deriving DecidableEq, Repr

namespace Match

/-- `Match::new` from `lib.rs`. -/
def new (first_pos second_pos length : Nat) : Match :=
  { first_pos := first_pos, second_pos := second_pos, length := length }

/-- `Match::first_end`: `first_pos + length`. -/
def first_end (m : Match) : Nat := m.first_pos + m.length

/-- `Match::second_end`: `second_pos + length`. -/
def second_end (m : Match) : Nat := m.second_pos + m.length

end Match

/-- The `k`-byte window of `data` starting at position `i`: the byte string a
`MatchKey` of size `k` unpacks at cursor position `i` (all supported
`MatchKey` types read the window bytes injectively, so key equality in the
`HashMap` coincides with equality of the windows). -/
def window (data : List Byte) (i k : Nat) : List Byte :=
  (data.drop i).take k

/-- `build_map` from `lib.rs`/`hashmatch.rs`, viewed as the lookup function of
the built `HashMap`: the bucket for key `v` is the ascending list of all
positions `i < data.len() - k + 1` whose window equals `v`.  (The Rust loop
pushes exactly these `i` in ascending order; a key that never occurs has no
entry, which behaves like an empty bucket under `map.get`.) -/
def build_map (data : List Byte) (k : Nat) (v : List Byte) : List Nat :=
  (List.range (data.length - k + 1)).filter (fun i => window data i k = v)

/-- The match-length computation of `MatchIterator::next` /
`HashMatchIterator::next`, structurally recursive on the countdown
`first.length - p` (so that concrete runs reduce inside the kernel):
extend to the right while both indices are in bounds and the bytes
agree. -/
def extLenGo (first second : List Byte) : Nat → Nat → Nat → Nat
  | 0, _, _ => 0
  | fuel + 1, p, q =>
    if p < first.length ∧ q < second.length ∧
        first.getD p 0 = second.getD q 0 then
      extLenGo first second fuel (p + 1) (q + 1) + 1
    else 0

/-- The right-extension length from `(p, q)`: the loop of lines 141–146 of
`hashmatch.rs` (identical in `lib.rs`). -/
def extLen (first second : List Byte) (p q : Nat) : Nat :=
  extLenGo first second (first.length - p) p q

/-- The diagonal de-duplication map `delta -> reach` (`matched` in the Rust
structs), as a finite partial function. -/
def Mt := Int → Option Nat

/-- The empty diagonal map (a fresh `HashMap`). -/
def mtEmpty : Mt := fun _ => none

/-- `HashMap::insert` on the diagonal map. -/
def mtInsert (mt : Mt) (delta : Int) (reach : Nat) : Mt :=
  fun d => if d = delta then some reach else mt d

/-- Suppression test of `hashmatch.rs` (`HashMatchIterator::next`, line 137):
a candidate at diagonal `delta` and outer cursor `j` is skipped iff
`matched.contains_key(&delta) && matched.get(&delta).unwrap() >= &j`. -/
def suppressedGe (mt : Mt) (delta : Int) (j : Nat) : Bool :=
  match mt delta with
  | some reach => j ≤ reach
  | none => false

/-- Suppression test of `lib.rs` (`MatchIterator::next`, line 173): the same
with the strict comparison `matched.get(&delta).unwrap() > &j`. -/
def suppressedGt (mt : Mt) (delta : Int) (j : Nat) : Bool :=
  match mt delta with
  | some reach => j < reach
  | none => false

/-- One outer-loop round of `HashMatchIterator::next` at fixed cursor `j`,
working through the remaining bucket positions: each position is either
suppressed by the diagonal map or emits a match `(p, j, extLen)` and records
`delta -> j + extLen`.  Returns the emitted matches of this round together
with the updated diagonal map. -/
def procBucketGe (first second : List Byte) (j : Nat) :
    List Nat → Mt → List Match × Mt
  | [], mt => ([], mt)
  | p :: rest, mt =>
    let delta : Int := (p : Int) - (j : Int)
    if suppressedGe mt delta j then
      procBucketGe first second j rest mt
    else
      let idx := extLen first second p j
      let mt' := mtInsert mt delta (j + idx)
      let res := procBucketGe first second j rest mt'
      (Match.new p j idx :: res.1, res.2)

/-- Same as `procBucketGe` for `MatchIterator::next` of `lib.rs` (strict
suppression test). -/
def procBucketGt (first second : List Byte) (j : Nat) :
    List Nat → Mt → List Match × Mt
  | [], mt => ([], mt)
  | p :: rest, mt =>
    let delta : Int := (p : Int) - (j : Int)
    if suppressedGt mt delta j then
      procBucketGt first second j rest mt
    else
      let idx := extLen first second p j
      let mt' := mtInsert mt delta (j + idx)
      let res := procBucketGt first second j rest mt'
      (Match.new p j idx :: res.1, res.2)

/-- Full drain of `HashMatchIterator` starting at cursor `j` with `steps`
outer-loop rounds left (`steps = second_len - j`); each round looks up the
bucket of the current window and processes it with `procBucketGe`.  The
concatenation of the per-round emissions is exactly the sequence of matches
the iterator returns across successive `next()` calls. -/
def drainGe (first second : List Byte) (k : Nat) :
    Nat → Nat → Mt → List Match
  | 0, _, _ => []
  | steps + 1, j, mt =>
    let bucket := build_map first k (window second j k)
    let res := procBucketGe first second j bucket mt
    res.1 ++ drainGe first second k steps (j + 1) res.2

/-- Full drain of `MatchIterator` (`lib.rs`), strict suppression test. -/
def drainGt (first second : List Byte) (k : Nat) :
    Nat → Nat → Mt → List Match
  | 0, _, _ => []
  | steps + 1, j, mt =>
    let bucket := build_map first k (window second j k)
    let res := procBucketGt first second j bucket mt
    res.1 ++ drainGt first second k steps (j + 1) res.2

/-- `second_len` of both iterators: `second.len() - size_of::<T>() + 1`
(in-range arithmetic; the underflowing cases are modelled by `hmNewChecked`
below). -/
def secondLen (second : List Byte) (k : Nat) : Nat :=
  second.length - k + 1

/-- The complete match sequence of a fresh `HashMatchIterator::<T>` with
`k = size_of::<T>()`: cursors start at `j = 0`, `i = 0`, empty diagonal
map. -/
def hashMatchDrain (first second : List Byte) (k : Nat) : List Match :=
  drainGe first second k (secondLen second k) 0 mtEmpty

/-- The complete match sequence of a fresh `MatchIterator::<T>` (`lib.rs`). -/
def matchIterDrain (first second : List Byte) (k : Nat) : List Match :=
  drainGt first second k (secondLen second k) 0 mtEmpty

/-! ## Reducers (`lib.rs`) -/

/-- The insertion step of `longest_common_substrings`: scan for the first
position whose entry's length is not greater than `m.length`
(`while insert_pos < top.len() && top[insert_pos].length > m.length`) and
insert `m` there. -/
def topInsert (m : Match) : List Match → List Match
  | [] => [m]
  | x :: xs =>
    if m.length < x.length then x :: topInsert m xs else m :: x :: xs

/-- The loop of `longest_common_substrings` over the emitted matches,
carrying `(top, threshold)`.  `none` models the panic of
`top.last().unwrap()` when `number = 0` forces `truncate(0)` to empty the
list. -/
def lcssGo (number : Nat) : List Match → List Match × Nat → Option (List Match)
  | [], (top, _) => some top
  | m :: rest, (top, threshold) =>
    if threshold < m.length then
      if number < (topInsert m top).length then
        match ((topInsert m top).take number).getLast? with
        | some last =>
          lcssGo number rest ((topInsert m top).take number, last.length)
        | none => none
      else lcssGo number rest (topInsert m top, threshold)
    else lcssGo number rest (top, threshold)

/-- `longest_common_substrings` from `lib.rs`. -/
def longest_common_substrings (first second : List Byte) (k number : Nat) :
    Option (List Match) :=
  lcssGo number (matchIterDrain first second k) ([], 0)

/-- The loop body of `patch_set` for one further match `m`, acting on the
nonempty accumulated patch list (given as `init ++ [last]`). -/
def patchStep (patches : List Match) (last : Match) (m : Match) :
    List Match × Match :=
  if last.second_end < m.second_end then
    if m.second_pos = last.second_pos then
      (patches, m)
    else if m.second_pos < last.second_pos then
      let overlap := last.second_pos - m.second_pos
      (patches,
       Match.new (m.first_pos + overlap) (m.second_pos + overlap)
         (m.length - overlap))
    else if m.second_pos < last.second_end then
      let overlap := last.second_end - m.second_pos
      (patches ++ [last],
       Match.new (m.first_pos + overlap) (m.second_pos + overlap)
         (m.length - overlap))
    else
      (patches ++ [last], m)
  else (patches, last)

/-- The loop of `patch_set` over the remaining matches. -/
def patchGo : List Match → List Match → Match → List Match
  | [], patches, last => patches ++ [last]
  | m :: rest, patches, last =>
    let st := patchStep patches last m
    patchGo rest st.1 st.2

/-- `patch_set` from `lib.rs`: push the first match unconditionally, then fold
the loop body over the rest of the enumeration. -/
def patch_set (first second : List Byte) (k : Nat) : List Match :=
  match matchIterDrain first second k with
  | [] => []
  | m :: rest => patchGo rest [] m

/-- `map.contains_key(&v)` for the key table built from `first` (used by the
key-width `unique_strings`). -/
def containsKey (first : List Byte) (k : Nat) (v : List Byte) : Bool :=
  !(build_map first k v).isEmpty

/-- The loop body of `unique_strings` (`hashmatch.rs` lines 174–197, and the
identical copy in `lib.rs`): if the window at `i` occurs in `first`,
terminate the current unique range (left-adjust it by `k - 1` when it does
not start at 0, drop it if empty); otherwise start or extend the current
range. -/
def uniqueStep (first second : List Byte) (k : Nat)
    (st : List (Nat × Nat) × Option (Nat × Nat)) (i : Nat) :
    List (Nat × Nat) × Option (Nat × Nat) :=
  if containsKey first k (window second i k) then
    match st.2 with
    | some unique =>
      let lo := if 0 < unique.1 then unique.1 + (k - 1) else unique.1
      (if lo < unique.2 then st.1 ++ [(lo, unique.2)] else st.1, none)
    | none => (st.1, none)
  else
    match st.2 with
    | some unique => (st.1, some (unique.1, i + 1))
    | none => (st.1, some (i, i + 1))

/-- The final flush of `unique_strings`: the dangling range is additionally
right-adjusted by `k - 1` before the emptiness check. -/
def uniqueFlush (k : Nat) (st : List (Nat × Nat) × Option (Nat × Nat)) :
    List (Nat × Nat) :=
  match st.2 with
  | some unique =>
    let lo := if 0 < unique.1 then unique.1 + (k - 1) else unique.1
    let hi := unique.2 + (k - 1)
    if lo < hi then st.1 ++ [(lo, hi)] else st.1
  | none => st.1

/-- `unique_strings` from `hashmatch.rs` (the key-width-aware variant, also
duplicated verbatim in `lib.rs`). -/
def unique_strings (first second : List Byte) (k : Nat) : List (Nat × Nat) :=
  uniqueFlush k
    ((List.range (secondLen second k)).foldl (uniqueStep first second k)
      ([], none))

/-! ## Construction error modelling (`usize` debug semantics) -/

/-- Rust `usize` subtraction with debug-mode overflow checking: `none` models
the panic on underflow. -/
def checkedSub (a b : Nat) : Option Nat :=
  if b ≤ a then some (a - b) else none

/-- `build_map`'s size computation `data.len() - size_of::<T>() + 1` with the
`usize` underflow of `data.len() - size_of::<T>()` modelled as a panic
(debug semantics; in release mode the wrapped size makes the subsequent
`c.unpack::<T>().unwrap()` panic instead for `data.len() + 2 ≤ k`). -/
def build_map_checked (data : List Byte) (k : Nat) :
    Option (List Byte → List Nat) := do
  let sz ← checkedSub data.length k
  let _ := sz + 1
  pure (build_map data k)

/-- `HashMatchIterator::<T>::new` (and identically `MatchIterator::<T>::new`):
computes `second_len = second.len() - size_of::<T>() + 1` and builds the key
table over `first`; the result is the match sequence the constructed
iterator will emit.  `none` models a construction panic. -/
def hmIterNewChecked (first second : List Byte) (k : Nat) :
    Option (List Match) := do
  let sl ← checkedSub second.length k
  let _ := sl + 1
  let _ ← build_map_checked first k
  pure (hashMatchDrain first second k)

/-! ## Suffix tree (`treematch.rs` and `ukkonen.rs`) -/

/-- A node of the suffix tree.  The Rust field `end` is called `end_` here
(`end` is a Lean keyword); `edges` is the `[Option<usize>; 257]` fan-out
array as a list of length 257 (slot 256 is the end-of-data sentinel). -/
structure Node where
  start : Nat
  end_ : Nat
  edges : List (Option Nat)
  suffix_link : Option Nat
deriving DecidableEq, Repr

/-- `Node::new`. -/
def Node.new (start end_ : Nat) : Node :=
  { start := start, end_ := end_, edges := List.replicate 257 none,
    suffix_link := none }

/-- `Node::edge_length`: `end - start`. -/
def Node.edge_length (n : Node) : Nat := n.end_ - n.start

/-- A suffix tree: the arena of nodes, the first element being the root. -/
structure SuffixTree where
  nodes : List Node
deriving DecidableEq, Repr

/-- `self.nodes[active_node].edges[active_edge]` as a fallible lookup: the
outer `none` models the array-index panic for a slot outside `0..257`. -/
def edgeSlot? (n : Node) (slot : Nat) : Option (Option Nat) :=
  if slot < 257 then some (n.edges.getD slot none) else none

/-- `self.nodes[i].edges[slot] = Some(tgt)`. -/
def stSetEdge (nodes : List Node) (i slot tgt : Nat) : Option (List Node) := do
  let n ← nodes.get? i
  if slot < 257 then
    some (nodes.set i { n with edges := n.edges.set slot (some tgt) })
  else none

/-- `self.nodes[i].start = v`. -/
def stSetStart (nodes : List Node) (i v : Nat) : Option (List Node) := do
  let n ← nodes.get? i
  some (nodes.set i { n with start := v })

/-- `self.nodes[i].suffix_link = Some(tgt)`. -/
def stSetLink (nodes : List Node) (i tgt : Nat) : Option (List Node) := do
  let n ← nodes.get? i
  some (nodes.set i { n with suffix_link := some tgt })

/-- The mutable state of `extend_tree`. -/
structure BuildSt where
  nodes : List Node
  last_new_node : Option Nat
  active_node : Nat
  active_length : Nat
  active_edge : Nat
  remaining_suffix : Nat

/-- Outcome of one iteration of the `while remaining_suffix > 0` body:
`cont` is Rust `continue` (walk-down, skipping the epilogue), `brk` is the
Rule-3 `break`, `fall` falls through to the epilogue. -/
inductive BuildStep where
  | cont (s : BuildSt)
  | brk (s : BuildSt)
  | fall (s : BuildSt)

/-- The shared epilogue of the main-loop body (`remaining_suffix -= 1` and
the active-point rotation), identical in `treematch.rs` and `ukkonen.rs`. -/
def mainEpilogue (data : List Byte) (i : Nat) (s : BuildSt) : Option BuildSt := do
  let s := { s with remaining_suffix := s.remaining_suffix - 1 }
  if s.active_node = 0 ∧ 0 < s.active_length then do
    let idx ← checkedSub i s.remaining_suffix
    let c ← data.get? (idx + 1)
    pure { s with active_length := s.active_length - 1, active_edge := c.val }
  else if s.active_node ≠ 0 then do
    let an ← s.nodes.get? s.active_node
    pure { s with active_node := an.suffix_link.getD 0 }
  else pure s

/-- The shared epilogue of the final (sentinel) phase body. -/
def finalEpilogue (data : List Byte) (s : BuildSt) : Option BuildSt := do
  let s := { s with remaining_suffix := s.remaining_suffix - 1 }
  if s.active_node = 0 ∧ 0 < s.active_length then
    let s := { s with active_length := s.active_length - 1 }
    if s.remaining_suffix < 2 then
      pure { s with active_edge := 256 }
    else do
      let idx ← checkedSub data.length s.remaining_suffix
      let c ← data.get? (idx + 1)
      pure { s with active_edge := c.val }
  else if s.active_node ≠ 0 then do
    let an ← s.nodes.get? s.active_node
    pure { s with active_node := an.suffix_link.getD 0 }
  else pure s

/-- The fueled `while remaining_suffix > 0` loop, parameterized by the loop
body; fuel exhaustion gives `none` (never reached on actual runs, the fuel
passed below is generous). -/
def buildLoop (body : BuildSt → Option BuildStep)
    (epi : BuildSt → Option BuildSt) : Nat → BuildSt → Option BuildSt
  | 0, _ => none
  | fuel + 1, s =>
    if s.remaining_suffix = 0 then some s
    else do
      let r ← body s
      match r with
      | .cont s' => buildLoop body epi fuel s'
      | .brk s' => some s'
      | .fall s' => do
        let s'' ← epi s'
        buildLoop body epi fuel s''

/-- The suffix-link snippet `if last_new_node.is_some() { nodes[lnn].suffix_link = Some(tgt); last_new_node = None; }` (after which `last_new_node` is `None` either way). -/
def maybeLink (nodes : List Node) (lnn : Option Nat) (tgt : Nat) :
    Option (List Node) :=
  match lnn with
  | some l => stSetLink nodes l tgt
  | none => pure nodes

/-- The Rule-3 suffix-link snippet: link only when a node is waiting *and*
the active node is not the root; returns the nodes and the remaining
`last_new_node`. -/
def condLink (nodes : List Node) (lnn : Option Nat) (an : Nat) :
    Option (List Node × Option Nat) :=
  match lnn with
  | some l =>
    if 0 < an then do
      let ns ← stSetLink nodes l an
      pure (ns, none)
    else pure (nodes, lnn)
  | none => pure (nodes, lnn)

/-- One iteration of the main-loop body of `treematch.rs::extend_tree`
(lines 70–137) for phase `i`. -/
def tmMainCore (data : List Byte) (i : Nat) (s : BuildSt) : Option BuildStep := do
  let an ← s.nodes.get? s.active_node
  let slotv ← edgeSlot? an s.active_edge
  match slotv with
  | some next_node => do
    let nn ← s.nodes.get? next_node
    if nn.edge_length ≤ s.active_length then do
      let c ← data.get? nn.end_
      pure (BuildStep.cont { s with
        active_node := next_node,
        active_edge := c.val,
        active_length := s.active_length - nn.edge_length })
    else do
      let ce ← data.get? (nn.start + s.active_length)
      let ci ← data.get? i
      if ce = ci then do
        let nl ← condLink s.nodes s.last_new_node s.active_node
        pure (BuildStep.brk
          { s with nodes := nl.1, last_new_node := nl.2,
                   active_length := s.active_length + 1 })
      else do
        let start := nn.start
        let split_pos := nn.start + s.active_length
        let nodes0 := s.nodes ++ [Node.new start split_pos]
        let split := s.nodes.length
        let nodes1 ← stSetStart nodes0 next_node split_pos
        let cs ← data.get? start
        let nodes2 ← stSetEdge nodes1 s.active_node cs.val split
        let csp ← data.get? split_pos
        let nodes3 ← stSetEdge nodes2 split csp.val next_node
        let nodes4 := nodes3 ++ [Node.new i data.length]
        let leaf := nodes4.length - 1
        let ci2 ← data.get? i
        let nodes5 ← stSetEdge nodes4 split ci2.val leaf
        let nodes6 ← maybeLink nodes5 s.last_new_node split
        pure (BuildStep.fall
          { s with nodes := nodes6, last_new_node := some split })
  | none => do
    let nodes0 := s.nodes ++ [Node.new i data.length]
    let leaf := nodes0.length - 1
    let nodes1 ← stSetEdge nodes0 s.active_node s.active_edge leaf
    let nodes2 ← maybeLink nodes1 s.last_new_node s.active_node
    pure (BuildStep.fall { s with nodes := nodes2, last_new_node := none })

/-- One iteration of the main-loop body of `treematch.rs::extend_tree`:
the `active_length == 0` prelude (which may read `data[i]`), then the
dispatch `tmMainCore`. -/
def tmMainBody (data : List Byte) (i : Nat) (s : BuildSt) : Option BuildStep :=
  if s.active_length = 0 then
    (data.get? i).bind (fun c => tmMainCore data i { s with active_edge := c.val })
  else tmMainCore data i s

/-- One iteration of the sentinel-phase body of `treematch.rs::extend_tree`
(lines 141–194), after the `active_edge = 256` prelude. -/
def tmFinalCore (data : List Byte) (s : BuildSt) : Option BuildStep := do
  let an ← s.nodes.get? s.active_node
  let slotv ← edgeSlot? an s.active_edge
  match slotv with
  | some next_node => do
    let nn ← s.nodes.get? next_node
    if nn.edge_length ≤ s.active_length then
      pure (BuildStep.cont { s with
        active_edge := s.active_edge + nn.edge_length,
        active_length := s.active_length - nn.edge_length,
        active_node := next_node })
    else if nn.start + s.active_length = data.length then do
      let nl ← condLink s.nodes s.last_new_node s.active_node
      pure (BuildStep.brk
        { s with nodes := nl.1, last_new_node := nl.2,
                 active_length := s.active_length + 1 })
    else do
      let start := nn.start
      let split_pos := nn.start + s.active_length
      let nodes0 := s.nodes ++ [Node.new start split_pos]
      let split := s.nodes.length
      let nodes1 ← stSetStart nodes0 next_node split_pos
      let cs ← data.get? start
      let nodes2 ← stSetEdge nodes1 s.active_node cs.val split
      let csp ← data.get? split_pos
      let nodes3 ← stSetEdge nodes2 split csp.val next_node
      let nodes4 := nodes3 ++ [Node.new data.length data.length]
      let leaf := nodes4.length - 1
      let nodes5 ← stSetEdge nodes4 split 256 leaf
      let nodes6 ← maybeLink nodes5 s.last_new_node split
      pure (BuildStep.fall
        { s with nodes := nodes6, last_new_node := some split })
  | none => do
    let nodes0 := s.nodes ++ [Node.new data.length data.length]
    let leaf := nodes0.length - 1
    let nodes1 ← stSetEdge nodes0 s.active_node s.active_edge leaf
    let nodes2 ← maybeLink nodes1 s.last_new_node s.active_node
    pure (BuildStep.fall { s with nodes := nodes2, last_new_node := none })

/-- One iteration of the sentinel-phase body of `treematch.rs`:
`active_edge = 256` when the active length is zero, then `tmFinalCore`. -/
def tmFinalBody (data : List Byte) (s : BuildSt) : Option BuildStep :=
  tmFinalCore data
    (if s.active_length = 0 then { s with active_edge := 256 } else s)

/-- Per-phase fuel for the `while remaining_suffix > 0` loop; generous. -/
def buildFuel (n : Nat) : Nat := (n + 2) * (n + 3) + 2

/-- The phases `i = 0, …` of the main `for` loop: each phase resets
`last_new_node`, increments `remaining_suffix` and runs the inner loop. -/
def tmPhases (data : List Byte) : Nat → Nat → BuildSt → Option BuildSt
  | 0, _, s => some s
  | steps + 1, i, s => do
    let s' ← buildLoop (tmMainBody data i) (mainEpilogue data i)
      (buildFuel data.length)
      { s with last_new_node := none,
               remaining_suffix := s.remaining_suffix + 1 }
    tmPhases data steps (i + 1) s'

/-- `treematch.rs::extend_tree`: the main loop over `data` followed by the
simulated end-character phase.  The initial `active_edge = data[0]` read
panics (`none`) on empty input. -/
def tmExtendTree (data : List Byte) : Option BuildSt := do
  let c0 ← data.get? 0
  let s0 : BuildSt :=
    { nodes := [Node.new 0 0], last_new_node := none, active_node := 0,
      active_length := 0, active_edge := c0.val, remaining_suffix := 0 }
  let s1 ← tmPhases data data.length 0 s0
  buildLoop (tmFinalBody data) (finalEpilogue data) (buildFuel data.length)
    { s1 with remaining_suffix := s1.remaining_suffix + 1 }

/-- `SuffixTree::new` of `treematch.rs`. -/
def tmNew (data : List Byte) : Option SuffixTree := do
  let s ← tmExtendTree data
  pure { nodes := s.nodes }

/-- One iteration of the main-loop body of `ukkonen.rs::extend_tree`
(lines 49–117), after the prelude.  Differences from `treematch.rs`:
leaves are created with `end = usize::MAX`, and the Rule-2 suffix link
points at the new leaf. -/
def ukMainCore (data : List Byte) (i : Nat) (s : BuildSt) : Option BuildStep := do
  let an ← s.nodes.get? s.active_node
  let slotv ← edgeSlot? an s.active_edge
  match slotv with
  | some next_node => do
    let nn ← s.nodes.get? next_node
    if nn.edge_length ≤ s.active_length then do
      let c ← data.get? nn.end_
      pure (BuildStep.cont { s with
        active_node := next_node,
        active_edge := c.val,
        active_length := s.active_length - nn.edge_length })
    else do
      let ce ← data.get? (nn.start + s.active_length)
      let ci ← data.get? i
      if ce = ci then do
        let nl ← condLink s.nodes s.last_new_node s.active_node
        pure (BuildStep.brk
          { s with nodes := nl.1, last_new_node := nl.2,
                   active_length := s.active_length + 1 })
      else do
        let start := nn.start
        let split_pos := nn.start + s.active_length
        let nodes0 := s.nodes ++ [Node.new start split_pos]
        let split := s.nodes.length
        let nodes1 ← stSetStart nodes0 next_node split_pos
        let cs ← data.get? start
        let nodes2 ← stSetEdge nodes1 s.active_node cs.val split
        let csp ← data.get? split_pos
        let nodes3 ← stSetEdge nodes2 split csp.val next_node
        let nodes4 := nodes3 ++ [Node.new i USIZE_MAX]
        let leaf := nodes4.length - 1
        let ci2 ← data.get? i
        let nodes5 ← stSetEdge nodes4 split ci2.val leaf
        let nodes6 ← maybeLink nodes5 s.last_new_node split
        pure (BuildStep.fall
          { s with nodes := nodes6, last_new_node := some split })
  | none => do
    let nodes0 := s.nodes ++ [Node.new i USIZE_MAX]
    let leaf := nodes0.length - 1
    let nodes1 ← stSetEdge nodes0 s.active_node s.active_edge leaf
    let nodes2 ← maybeLink nodes1 s.last_new_node leaf
    pure (BuildStep.fall { s with nodes := nodes2, last_new_node := none })

/-- One iteration of the main-loop body of `ukkonen.rs::extend_tree`:
prelude then `ukMainCore`. -/
def ukMainBody (data : List Byte) (i : Nat) (s : BuildSt) : Option BuildStep :=
  if s.active_length = 0 then
    (data.get? i).bind (fun c => ukMainCore data i { s with active_edge := c.val })
  else ukMainCore data i s

/-- One iteration of the sentinel-phase body of `ukkonen.rs::extend_tree`
(lines 121–193), after the prelude; leaves are `(usize::MAX, usize::MAX)`
and the Rule-2 link points at the new leaf. -/
def ukFinalCore (data : List Byte) (s : BuildSt) : Option BuildStep := do
  let an ← s.nodes.get? s.active_node
  let slotv ← edgeSlot? an s.active_edge
  match slotv with
  | some next_node => do
    let nn ← s.nodes.get? next_node
    if nn.edge_length ≤ s.active_length then
      pure (BuildStep.cont { s with
        active_edge := s.active_edge + nn.edge_length,
        active_length := s.active_length - nn.edge_length,
        active_node := next_node })
    else if nn.start + s.active_length = data.length then do
      let nl ← condLink s.nodes s.last_new_node s.active_node
      pure (BuildStep.brk
        { s with nodes := nl.1, last_new_node := nl.2,
                 active_length := s.active_length + 1 })
    else do
      let start := nn.start
      let split_pos := nn.start + s.active_length
      let nodes0 := s.nodes ++ [Node.new start split_pos]
      let split := s.nodes.length
      let nodes1 ← stSetStart nodes0 next_node split_pos
      let cs ← data.get? start
      let nodes2 ← stSetEdge nodes1 s.active_node cs.val split
      let csp ← data.get? split_pos
      let nodes3 ← stSetEdge nodes2 split csp.val next_node
      let nodes4 := nodes3 ++ [Node.new USIZE_MAX USIZE_MAX]
      let leaf := nodes4.length - 1
      let nodes5 ← stSetEdge nodes4 split 256 leaf
      let nodes6 ← maybeLink nodes5 s.last_new_node split
      pure (BuildStep.fall
        { s with nodes := nodes6, last_new_node := some split })
  | none => do
    let nodes0 := s.nodes ++ [Node.new USIZE_MAX USIZE_MAX]
    let leaf := nodes0.length - 1
    let nodes1 ← stSetEdge nodes0 s.active_node s.active_edge leaf
    let nodes2 ← maybeLink nodes1 s.last_new_node leaf
    pure (BuildStep.fall { s with nodes := nodes2, last_new_node := none })

/-- One iteration of the sentinel-phase body of `ukkonen.rs`:
`active_edge = 256` when the active length is zero, then `ukFinalCore`. -/
def ukFinalBody (data : List Byte) (s : BuildSt) : Option BuildStep :=
  ukFinalCore data
    (if s.active_length = 0 then { s with active_edge := 256 } else s)

/-- The phases of `ukkonen.rs::extend_tree`'s main `for` loop. -/
def ukPhases (data : List Byte) : Nat → Nat → BuildSt → Option BuildSt
  | 0, _, s => some s
  | steps + 1, i, s => do
    let s' ← buildLoop (ukMainBody data i) (mainEpilogue data i)
      (buildFuel data.length)
      { s with last_new_node := none,
               remaining_suffix := s.remaining_suffix + 1 }
    ukPhases data steps (i + 1) s'

/-- `ukkonen.rs::extend_tree`. -/
def ukExtendTree (data : List Byte) : Option BuildSt := do
  let c0 ← data.get? 0
  let s0 : BuildSt :=
    { nodes := [Node.new 0 0], last_new_node := none, active_node := 0,
      active_length := 0, active_edge := c0.val, remaining_suffix := 0 }
  let s1 ← ukPhases data data.length 0 s0
  buildLoop (ukFinalBody data) (finalEpilogue data) (buildFuel data.length)
    { s1 with remaining_suffix := s1.remaining_suffix + 1 }

/-- `SuffixTree::new` of `ukkonen.rs`. -/
def ukNew (data : List Byte) : Option SuffixTree := do
  let s ← ukExtendTree data
  pure { nodes := s.nodes }

/-! ## TreeMatch iterator (`treematch.rs::TreeMatchIterator`) -/

/-- The mutable state of `TreeMatchIterator` (the borrowed slices, the tree
and `minimal_length` are immutable and passed as parameters).  The head of
`backtrace` is the top of the Rust `Vec` stack. -/
structure TmIterSt where
  i : Nat
  backtrace : List (Nat × Nat)
  match_length : Nat
  depth : Nat
  matched : Mt

/-- Result of a `next()` call: a yielded match with the successor state, or
the end of the sequence. -/
inductive TmStep where
  | yield (m : Match) (s : TmIterSt)
  | done

/-- The byte-matching loop `for j in 0..edge_length` of
`TreeMatchIterator::next` (lines 310–319 in the dive, 341–350 in the
harvest): advance `match_length` while `second` is in bounds and the bytes
agree; `first` is indexed unconditionally (panic modelled by `none`). -/
def edgeScan (first second : List Byte) (start sbase : Nat) :
    Nat → Nat → Nat → Option Nat
  | 0, _, ml => some ml
  | count + 1, j, ml =>
    if sbase + j < second.length then do
      let fb ← first.get? (start + j)
      if fb = second.getD (sbase + j) 0 then
        edgeScan first second start sbase count (j + 1) (ml + 1)
      else some ml
    else some ml

/-- The edge scan `while idx < 257` of the harvest loop, structurally
recursive on the countdown `257 - idx`. -/
def edgeScanGo (edges : List (Option Nat)) : Nat → Nat → Option (Nat × Nat)
  | 0, _ => none
  | fuel + 1, idx =>
    if idx < 257 then
      match edges.getD idx none with
      | some t => some (idx, t)
      | none => edgeScanGo edges fuel (idx + 1)
    else none

/-- The first slot `≥ idx` holding an edge, with its target. -/
def edgeScanFrom (edges : List (Option Nat)) (idx : Nat) : Option (Nat × Nat) :=
  edgeScanGo edges (257 - idx) idx

/-- The dive of `TreeMatchIterator::next` (lines 299–326): descend from the
root along `second[i..]` while `match_length == depth` and
`match_length < minimal_length`; returns the final
`(match_length, depth, cur)`. -/
def tmDive (first second : List Byte) (tree : SuffixTree) (mml i : Nat) :
    Nat → Nat → Nat → Nat → Option (Nat × Nat × Nat)
  | 0, _, _, _ => none
  | fuel + 1, ml, d, cur =>
    if ml = d ∧ ml < mml then
      if i + d < second.length then do
        let curN ← tree.nodes.get? cur
        let c := second.getD (i + d) 0
        let slotv ← edgeSlot? curN c.val
        match slotv with
        | some next => do
          let nn ← tree.nodes.get? next
          let ml' ← edgeScan first second nn.start (i + d) nn.edge_length 0 ml
          tmDive first second tree mml i fuel ml' (d + nn.edge_length) next
        | none => some (ml, d, cur)
      else some (ml, d, cur)
    else some (ml, d, cur)

/-- Result of the harvest loop: a yielded match (with the updated traversal
state), or an emptied backtrace (the outer loop then advances `i`). -/
inductive HarvRes where
  | yield (m : Match) (bt : List (Nat × Nat)) (ml d : Nat) (mt : Mt)
  | empty (ml d : Nat) (mt : Mt)

/-- The harvest loop `while backtrace.len() > 0` of
`TreeMatchIterator::next` (lines 335–386). -/
def tmHarvest (first second : List Byte) (tree : SuffixTree) (i : Nat) :
    Nat → List (Nat × Nat) → Nat → Nat → Mt → Option HarvRes
  | 0, _, _, _, _ => none
  | fuel + 1, bt, ml, d, mt =>
    match bt with
    | [] => some (.empty ml d mt)
    | (cur, idx) :: rest => do
      let curN ← tree.nodes.get? cur
      match edgeScanFrom curN.edges idx with
      | some (slot, next) => do
        let nn ← tree.nodes.get? next
        let ml' ← if ml = d then
            edgeScan first second nn.start (i + d) nn.edge_length 0 ml
          else pure ml
        let d' := d + nn.edge_length
        if cur = next then do
          -- the pushed frame `(next, 0)` is the top again: treated as a leaf
          let bt' := (next, slot + 1) :: (cur, slot + 1) :: rest
          let fp ← checkedSub curN.end_ d'
          let m := Match.new fp i ml'
          let delta : Int := (m.first_pos : Int) - (m.second_pos : Int)
          if suppressedGt mt delta m.second_pos then
            tmHarvest first second tree i fuel bt' ml' d' mt
          else
            some (.yield m bt' ml' d'
              (mtInsert mt delta (m.second_pos + m.length)))
        else
          tmHarvest first second tree i fuel
            ((next, 0) :: (cur, slot + 1) :: rest) ml' d' mt
      | none =>
        if idx = 0 then do
          -- no edge at all: `cur` is a leaf; record `idx = 258` and handle
          let bt' := (cur, 258) :: rest
          let fp ← checkedSub curN.end_ d
          let m := Match.new fp i ml
          let delta : Int := (m.first_pos : Int) - (m.second_pos : Int)
          if suppressedGt mt delta m.second_pos then
            tmHarvest first second tree i fuel bt' ml d mt
          else
            some (.yield m bt' ml d
              (mtInsert mt delta (m.second_pos + m.length)))
        else do
          let d' ← checkedSub d curN.edge_length
          let ml' := if d' < ml then d' else ml
          tmHarvest first second tree i fuel rest ml' d' mt

/-- `TreeMatchIterator::next` (fueled; `none` is a panic or fuel
exhaustion). -/
def tmNext (first second : List Byte) (tree : SuffixTree) (mml : Nat) :
    Nat → TmIterSt → Option TmStep
  | 0, _ => none
  | fuel + 1, s =>
    if s.i < second.length then
      match s.backtrace with
      | [] => do
        let dv ← tmDive first second tree mml s.i (fuel + 1) 0 0 0
        if dv.1 < mml then
          tmNext first second tree mml fuel
            { s with i := s.i + 1, match_length := dv.1, depth := dv.2.1 }
        else do
          let hr ← tmHarvest first second tree s.i (fuel + 1)
            [(dv.2.2, 0)] dv.1 dv.2.1 s.matched
          match hr with
          | .yield m bt ml d mt =>
            some (.yield m { s with backtrace := bt, match_length := ml,
                                    depth := d, matched := mt })
          | .empty ml d mt =>
            tmNext first second tree mml fuel
              { s with i := s.i + 1, backtrace := [], match_length := ml,
                       depth := d, matched := mt }
      | _ :: _ => do
        let hr ← tmHarvest first second tree s.i (fuel + 1)
          s.backtrace s.match_length s.depth s.matched
        match hr with
        | .yield m bt ml d mt =>
          some (.yield m { s with backtrace := bt, match_length := ml,
                                  depth := d, matched := mt })
        | .empty ml d mt =>
          tmNext first second tree mml fuel
            { s with i := s.i + 1, backtrace := [], match_length := ml,
                     depth := d, matched := mt }
    else some .done

/-- Repeated `next()` until `None`: the full match sequence (fueled). -/
def tmDrain (first second : List Byte) (tree : SuffixTree) (mml : Nat) :
    Nat → TmIterSt → Option (List Match)
  | 0, _ => none
  | fuel + 1, s => do
    let st ← tmNext first second tree mml (fuel + 1) s
    match st with
    | .done => some []
    | .yield m s' => do
      let rest ← tmDrain first second tree mml fuel s'
      some (m :: rest)

/-- The initial iterator state set up by `TreeMatchIterator::new`. -/
def tmInitSt : TmIterSt :=
  { i := 0, backtrace := [], match_length := 0, depth := 0,
    matched := mtEmpty }

/-- `TreeMatchIterator::reset`: zero `i`, clear `backtrace` and `matched`
(`match_length` and `depth` are left as they are). -/
def tmReset (s : TmIterSt) : TmIterSt :=
  { s with i := 0, backtrace := [], matched := mtEmpty }

/-- `TreeMatchIterator::new`: builds the suffix tree of `first` (panicking
on empty input) and the initial state. -/
def tmIterNew (first : List Byte) : Option (SuffixTree × TmIterSt) := do
  let t ← tmNew first
  pure (t, tmInitSt)

/-! ## Iterator-state view of the hash iterators (for the reset claim) -/

/-- The mutable cursor state of `MatchIterator`/`HashMatchIterator`. -/
structure HmIterSt where
  j : Nat
  i : Nat
  matched : Mt

/-- The state of a fresh iterator. -/
def hmInitSt : HmIterSt := { j := 0, i := 0, matched := mtEmpty }

/-- `reset` of both hash iterators: `i = 0; j = 0; matched.clear()`. -/
def hmReset (s : HmIterSt) : HmIterSt :=
  { s with j := 0, i := 0, matched := mtEmpty }

/-- The remaining match sequence of a `HashMatchIterator` whose cursor
state is `s`: finish the current bucket from index `i`, then the remaining
rounds. -/
def hmResume (first second : List Byte) (k : Nat) (s : HmIterSt) :
    List Match :=
  if s.j < secondLen second k then
    let bucket := (build_map first k (window second s.j k)).drop s.i
    let res := procBucketGe first second s.j bucket s.matched
    res.1 ++
      drainGe first second k (secondLen second k - (s.j + 1)) (s.j + 1) res.2
  else []

/-! ## Instrumented top-N fold (proof ghost state)

`lcssGoI` is `lcssGo` running on matches paired with their emission index;
it is related to `lcssGo` by `lcssGoI_map` below and lets the tie-breaking
order of `longest_common_substrings` be stated. -/

/-- `topInsert` on index-annotated matches. -/
def topInsertI (m : Nat × Match) : List (Nat × Match) → List (Nat × Match)
  | [] => [m]
  | x :: xs =>
    if m.2.length < x.2.length then x :: topInsertI m xs else m :: x :: xs

/-- `lcssGo` on index-annotated matches. -/
def lcssGoI (number : Nat) :
    List (Nat × Match) → List (Nat × Match) × Nat →
      Option (List (Nat × Match))
  | [], (top, _) => some top
  | m :: rest, (top, threshold) =>
    if threshold < m.2.length then
      if number < (topInsertI m top).length then
        match ((topInsertI m top).take number).getLast? with
        | some last =>
          lcssGoI number rest ((topInsertI m top).take number, last.2.length)
        | none => none
      else lcssGoI number rest (topInsertI m top, threshold)
    else lcssGoI number rest (top, threshold)

/-- Descending (length, emission index) lexicographic order: the later
emitted of two equal-length matches comes first. -/
def lcssRel (x y : Nat × Match) : Prop :=
  y.2.length < x.2.length ∨ (y.2.length = x.2.length ∧ y.1 < x.1)

/-! ## Properties used in the claim statements -/

/-- The matched ranges of `m` are in bounds and carry equal bytes:
`first[m.first_pos..m.first_end] == second[m.second_pos..m.second_end]`. -/
def matchOk (first second : List Byte) (m : Match) : Prop :=
  m.first_end ≤ first.length ∧ m.second_end ≤ second.length ∧
  (first.drop m.first_pos).take m.length =
    (second.drop m.second_pos).take m.length

/-- Right-maximality of an emitted match. -/
def rightMaximal (first second : List Byte) (m : Match) : Prop :=
  m.first_end = first.length ∨ m.second_end = second.length ∨
  first.getD m.first_end 0 ≠ second.getD m.second_end 0

/-- A hash seed at `(p, q)`: the `k`-byte windows exist and coincide. -/
def seedAt (first second : List Byte) (k p q : Nat) : Prop :=
  p + k ≤ first.length ∧ q + k ≤ second.length ∧
  window first p k = window second q k

/-- Invariant of the diagonal map during hash enumeration: every recorded
reach marks a position where the match stopped, so no seed can sit exactly
at the recorded end of its diagonal. -/
def MtInv (first second : List Byte) (k : Nat) (mt : Mt) : Prop :=
  ∀ delta r, mt delta = some r →
    ∀ p : Nat, (p : Int) = delta + r → ¬ seedAt first second k p r

/-- `TreeMatchIterator::new` followed by a full drain (fueled). -/
def tmDrainOf (first second : List Byte) (mml fuel : Nat) :
    Option (List Match) := do
  let ts ← tmIterNew first
  tmDrain first second ts.1 mml fuel ts.2

instance (first second : List Byte) (m : Match) :
    Decidable (matchOk first second m) := by
  unfold matchOk; infer_instance

instance (first second : List Byte) (m : Match) :
    Decidable (rightMaximal first second m) := by
  unfold rightMaximal; infer_instance

instance (first second : List Byte) (k p q : Nat) :
    Decidable (seedAt first second k p q) := by
  unfold seedAt; infer_instance

/-! ## Invariant definitions for the suffix-tree constructions -/

/-- The state carried by a loop-body outcome. -/
def BuildStep.st : BuildStep → BuildSt
  | .cont s => s
  | .brk s => s
  | .fall s => s

/-- A node is accounted for: its `end_` is the terminal value leaves are
created with (`data.len()` in `treematch.rs`, `usize::MAX` in
`ukkonen.rs`), or it has at least one child. -/
def nodeOk (term : Nat) (v : Node) : Prop :=
  v.end_ = term ∨ v.edges.any Option.isSome = true

/-- Arena invariant: every node has the full 257-slot fan-out array and is
accounted for. -/
def arenaOk (term : Nat) (ns : List Node) : Prop :=
  ∀ i v, ns.get? i = some v → v.edges.length = 257 ∧ nodeOk term v

/-- `arenaOk` with one exempt index — the just-pushed split node, before
its two children are attached later in the same loop-body iteration. -/
def arenaOkX (term j : Nat) (ns : List Node) : Prop :=
  ∀ i v, ns.get? i = some v →
    v.edges.length = 257 ∧ (i ≠ j → nodeOk term v)

/-- The arena after the very first loop-body iteration of either
construction on `c0 :: rest`: the root has gained the edge `c0 ↦ 1` and a
single leaf was pushed (`e = |data|` for `treematch.rs`, `usize::MAX` for
`ukkonen.rs`). -/
def rootArena (c0 : Byte) (e : Nat) : List Node :=
  [{ start := 0, end_ := 0,
     edges := (List.replicate 257 (none : Option Nat)).set c0.val (some 1),
     suffix_link := none },
   Node.new 0 e]

/-! ## Lemmas about the right-extension loop -/

theorem extLenGo_spec (first second : List Byte) :
    ∀ fuel p q, ∀ t < extLenGo first second fuel p q,
      p + t < first.length ∧ q + t < second.length ∧
      first.getD (p + t) 0 = second.getD (q + t) 0 := by
  intro fuel
  induction fuel with
  | zero => intro p q t ht; simp [extLenGo] at ht
  | succ fuel ih =>
    intro p q t ht
    rw [extLenGo] at ht
    split at ht
    · rename_i h
      match t with
      | 0 => simpa using h
      | t + 1 =>
        have := ih (p + 1) (q + 1) t (by omega)
        refine ⟨by omega, by omega, ?_⟩
        have e1 : p + (t + 1) = p + 1 + t := by omega
        have e2 : q + (t + 1) = q + 1 + t := by omega
        rw [e1, e2]
        exact this.2.2
    · omega

theorem extLenGo_stop (first second : List Byte) :
    ∀ fuel p q, first.length ≤ p + fuel →
      ¬ (p + extLenGo first second fuel p q < first.length ∧
         q + extLenGo first second fuel p q < second.length ∧
         first.getD (p + extLenGo first second fuel p q) 0 =
           second.getD (q + extLenGo first second fuel p q) 0) := by
  intro fuel
  induction fuel with
  | zero => intro p q hf; simp [extLenGo]; omega
  | succ fuel ih =>
    intro p q hf
    rw [extLenGo]
    split
    · rename_i h
      have := ih (p + 1) (q + 1) (by omega)
      have e1 : p + (extLenGo first second fuel (p + 1) (q + 1) + 1) =
          (p + 1) + extLenGo first second fuel (p + 1) (q + 1) := by omega
      have e2 : q + (extLenGo first second fuel (p + 1) (q + 1) + 1) =
          (q + 1) + extLenGo first second fuel (p + 1) (q + 1) := by omega
      rw [e1, e2]
      exact this
    · rename_i h
      simpa using h

theorem extLenGo_ge (first second : List Byte) :
    ∀ fuel p q n,
      (∀ t < n, p + t < first.length ∧ q + t < second.length ∧
        first.getD (p + t) 0 = second.getD (q + t) 0) →
      first.length ≤ p + fuel → n ≤ extLenGo first second fuel p q := by
  intro fuel
  induction fuel with
  | zero =>
    intro p q n hn hf
    match n with
    | 0 => exact Nat.zero_le _
    | n + 1 =>
      have := hn 0 (by omega)
      omega
  | succ fuel ih =>
    intro p q n hn hf
    match n with
    | 0 => exact Nat.zero_le _
    | n + 1 =>
      rw [extLenGo]
      have h0 := hn 0 (by omega)
      simp only [Nat.add_zero] at h0
      rw [if_pos h0]
      have : n ≤ extLenGo first second fuel (p + 1) (q + 1) := by
        refine ih (p + 1) (q + 1) n (fun t ht => ?_) (by omega)
        have := hn (t + 1) (by omega)
        have e1 : p + (t + 1) = p + 1 + t := by omega
        have e2 : q + (t + 1) = q + 1 + t := by omega
        rw [e1, e2] at this
        exact this
      omega

theorem extLen_spec (first second : List Byte) (p q : Nat) :
    ∀ t < extLen first second p q,
      p + t < first.length ∧ q + t < second.length ∧
      first.getD (p + t) 0 = second.getD (q + t) 0 :=
  extLenGo_spec first second (first.length - p) p q

theorem extLen_stop (first second : List Byte) (p q : Nat) :
    ¬ (p + extLen first second p q < first.length ∧
       q + extLen first second p q < second.length ∧
       first.getD (p + extLen first second p q) 0 =
         second.getD (q + extLen first second p q) 0) :=
  extLenGo_stop first second (first.length - p) p q (by omega)

theorem extLen_ge (first second : List Byte) (p q n : Nat)
    (hn : ∀ t < n, p + t < first.length ∧ q + t < second.length ∧
      first.getD (p + t) 0 = second.getD (q + t) 0) :
    n ≤ extLen first second p q :=
  extLenGo_ge first second (first.length - p) p q n hn (by omega)

/-! ## Window and key-table lemmas -/

theorem window_length (data : List Byte) {i k : Nat} (h : i + k ≤ data.length) :
    (window data i k).length = k := by
  simp only [window, List.length_take, List.length_drop]
  omega

theorem window_getD (data : List Byte) {i k t : Nat} (ht : t < k)
    (h : i + k ≤ data.length) :
    (window data i k).getD t 0 = data.getD (i + t) 0 := by
  have h1 : t < (window data i k).length := by rw [window_length data h]; omega
  have h2 : t < (data.drop i).length := by
    simp only [List.length_drop]; omega
  have h3 : i + t < data.length := by omega
  rw [List.getD_eq_getElem _ _ h1, List.getD_eq_getElem _ _ h3]
  simp only [window]
  rw [List.getElem_take, List.getElem_drop]

theorem seedAt_bytes {first second : List Byte} {k p q : Nat}
    (hs : seedAt first second k p q) :
    ∀ t < k, first.getD (p + t) 0 = second.getD (q + t) 0 := by
  intro t ht
  have h1 := window_getD first ht hs.1
  have h2 := window_getD second ht hs.2.1
  rw [← h1, ← h2, hs.2.2]

theorem mem_build_map_iff {data : List Byte} {k p : Nat} {v : List Byte} :
    p ∈ build_map data k v ↔
      p < data.length - k + 1 ∧ window data p k = v := by
  simp [build_map, List.mem_filter, List.mem_range]

/-! ## Emission correctness of the hash enumerators -/

theorem slice_eq_of_pointwise {first second : List Byte} {p q L : Nat}
    (h1 : p + L ≤ first.length) (h2 : q + L ≤ second.length)
    (h : ∀ t < L, first.getD (p + t) 0 = second.getD (q + t) 0) :
    (first.drop p).take L = (second.drop q).take L := by
  apply List.ext_getElem
  · simp only [List.length_take, List.length_drop]; omega
  · intro t ht1 ht2
    have htL : t < L := by
      simp only [List.length_take, List.length_drop] at ht1; omega
    have hp : p + t < first.length := by omega
    have hq : q + t < second.length := by omega
    rw [List.getElem_take, List.getElem_drop, List.getElem_take,
      List.getElem_drop]
    have := h t htL
    rw [List.getD_eq_getElem _ _ hp, List.getD_eq_getElem _ _ hq] at this
    exact this

/-- The facts established for each match a hash enumerator emits from a
window seed. -/
theorem emitted_facts {first second : List Byte} {k p j : Nat}
    (hk : 1 ≤ k) (hs : seedAt first second k p j) :
    k ≤ extLen first second p j ∧
    matchOk first second (Match.new p j (extLen first second p j)) ∧
    rightMaximal first second (Match.new p j (extLen first second p j)) := by
  obtain ⟨hsA, hsB, hsw⟩ := hs
  set L := extLen first second p j with hL
  have hspec := extLen_spec first second p j
  have hstop := extLen_stop first second p j
  have hkL : k ≤ L := by
    apply extLen_ge
    intro t ht
    exact ⟨by omega, by omega, seedAt_bytes ⟨hsA, hsB, hsw⟩ t ht⟩
  have hbA : p + L ≤ first.length := by
    rcases Nat.eq_zero_or_pos L with h0 | h0
    · omega
    · have := hspec (L - 1) (by omega)
      omega
  have hbB : j + L ≤ second.length := by
    rcases Nat.eq_zero_or_pos L with h0 | h0
    · omega
    · have := hspec (L - 1) (by omega)
      omega
  refine ⟨hkL, ⟨hbA, hbB, ?_⟩, ?_⟩
  · exact slice_eq_of_pointwise hbA hbB (fun t ht => (hspec t ht).2.2)
  · simp only [rightMaximal, Match.first_end, Match.second_end, Match.new]
    by_cases c1 : p + L = first.length
    · exact Or.inl c1
    · by_cases c2 : j + L = second.length
      · exact Or.inr (Or.inl c2)
      · refine Or.inr (Or.inr ?_)
        intro heq
        exact hstop ⟨by omega, by omega, heq⟩

theorem procBucketGe_emit {first second : List Byte} {k j : Nat}
    (hk : 1 ≤ k) :
    ∀ bucket mt, (∀ p ∈ bucket, seedAt first second k p j) →
      ∀ m ∈ (procBucketGe first second j bucket mt).1,
        k ≤ m.length ∧ matchOk first second m ∧
          rightMaximal first second m := by
  intro bucket
  induction bucket with
  | nil => intro mt _ m hm; simp [procBucketGe] at hm
  | cons p rest ih =>
    intro mt hb m hm
    rw [procBucketGe] at hm
    split at hm
    · exact ih mt (fun x hx => hb x (by simp [hx])) m hm
    · simp only [List.mem_cons] at hm
      rcases hm with rfl | hm
      · have := emitted_facts hk (hb p (by simp))
        exact ⟨this.1, this.2.1, this.2.2⟩
      · exact ih _ (fun x hx => hb x (by simp [hx])) m hm

theorem procBucketGt_emit {first second : List Byte} {k j : Nat}
    (hk : 1 ≤ k) :
    ∀ bucket mt, (∀ p ∈ bucket, seedAt first second k p j) →
      ∀ m ∈ (procBucketGt first second j bucket mt).1,
        k ≤ m.length ∧ matchOk first second m ∧
          rightMaximal first second m := by
  intro bucket
  induction bucket with
  | nil => intro mt _ m hm; simp [procBucketGt] at hm
  | cons p rest ih =>
    intro mt hb m hm
    rw [procBucketGt] at hm
    split at hm
    · exact ih mt (fun x hx => hb x (by simp [hx])) m hm
    · simp only [List.mem_cons] at hm
      rcases hm with rfl | hm
      · have := emitted_facts hk (hb p (by simp))
        exact ⟨this.1, this.2.1, this.2.2⟩
      · exact ih _ (fun x hx => hb x (by simp [hx])) m hm

theorem bucket_seeds {first second : List Byte} {k j : Nat}
    (hkA : k ≤ first.length) (hjB : j + k ≤ second.length) :
    ∀ p ∈ build_map first k (window second j k), seedAt first second k p j := by
  intro p hp
  rw [mem_build_map_iff] at hp
  exact ⟨by omega, hjB, hp.2⟩

theorem drainGe_emit {first second : List Byte} {k : Nat}
    (hk : 1 ≤ k) (hkA : k ≤ first.length) (hkB : k ≤ second.length) :
    ∀ steps j mt, j + steps ≤ secondLen second k →
      ∀ m ∈ drainGe first second k steps j mt,
        k ≤ m.length ∧ matchOk first second m ∧
          rightMaximal first second m := by
  intro steps
  induction steps with
  | zero => intro j mt _ m hm; simp [drainGe] at hm
  | succ steps ih =>
    intro j mt hrange m hm
    rw [drainGe] at hm
    simp only [List.mem_append] at hm
    have hjB : j + k ≤ second.length := by
      simp only [secondLen] at hrange
      omega
    rcases hm with hm | hm
    · exact procBucketGe_emit hk _ _ (bucket_seeds hkA hjB) m hm
    · exact ih (j + 1) _ (by omega) m hm

theorem drainGt_emit {first second : List Byte} {k : Nat}
    (hk : 1 ≤ k) (hkA : k ≤ first.length) (hkB : k ≤ second.length) :
    ∀ steps j mt, j + steps ≤ secondLen second k →
      ∀ m ∈ drainGt first second k steps j mt,
        k ≤ m.length ∧ matchOk first second m ∧
          rightMaximal first second m := by
  intro steps
  induction steps with
  | zero => intro j mt _ m hm; simp [drainGt] at hm
  | succ steps ih =>
    intro j mt hrange m hm
    rw [drainGt] at hm
    simp only [List.mem_append] at hm
    have hjB : j + k ≤ second.length := by
      simp only [secondLen] at hrange
      omega
    rcases hm with hm | hm
    · exact procBucketGt_emit hk _ _ (bucket_seeds hkA hjB) m hm
    · exact ih (j + 1) _ (by omega) m hm

/-- Every match a fresh `HashMatchIterator` emits is a genuine byte match
of length at least `k`, and is right-maximal. -/
theorem hashMatchDrain_emit {first second : List Byte} {k : Nat}
    (hk : 1 ≤ k) (hkA : k ≤ first.length) (hkB : k ≤ second.length) :
    ∀ m ∈ hashMatchDrain first second k,
      k ≤ m.length ∧ matchOk first second m ∧
        rightMaximal first second m :=
  drainGe_emit hk hkA hkB (secondLen second k) 0 mtEmpty (by omega)

/-- Every match a fresh `MatchIterator` (`lib.rs`) emits is a genuine byte
match of length at least `k`, and is right-maximal. -/
theorem matchIterDrain_emit {first second : List Byte} {k : Nat}
    (hk : 1 ≤ k) (hkA : k ≤ first.length) (hkB : k ≤ second.length) :
    ∀ m ∈ matchIterDrain first second k,
      k ≤ m.length ∧ matchOk first second m ∧
        rightMaximal first second m :=
  drainGt_emit hk hkA hkB (secondLen second k) 0 mtEmpty (by omega)

/-! ## Equality of the `lib.rs` and `hashmatch.rs` enumerators (C10) -/

theorem MtInv_empty {first second : List Byte} {k : Nat} :
    MtInv first second k mtEmpty := by
  intro delta r h
  simp [mtEmpty] at h

theorem MtInv_insert {first second : List Byte} {k p j : Nat} (hk : 1 ≤ k)
    {mt : Mt} (hinv : MtInv first second k mt) :
    MtInv first second k
      (mtInsert mt ((p : Int) - (j : Int)) (j + extLen first second p j)) := by
  intro delta r h pa hpa
  unfold mtInsert at h
  split at h
  · rename_i hdelta
    subst hdelta
    simp only [Option.some.injEq] at h
    set L := extLen first second p j with hL
    have hr : r = j + L := by omega
    subst hr
    have hpa' : pa = p + L := by
      have : (pa : Int) = (p : Int) + (L : Int) := by push_cast at hpa ⊢; omega
      exact_mod_cast this
    subst hpa'
    intro hs
    obtain ⟨hsA, hsB, hsw⟩ := hs
    apply extLen_stop first second p j
    refine ⟨by omega, by omega, ?_⟩
    have := seedAt_bytes ⟨hsA, hsB, hsw⟩ 0 (by omega)
    simpa using this
  · exact hinv delta r h pa hpa

theorem suppressed_agree {first second : List Byte} {k j : Nat}
    {mt : Mt} {p : Nat} (hinv : MtInv first second k mt)
    (hseed : seedAt first second k p j) :
    suppressedGt mt ((p : Int) - (j : Int)) j =
      suppressedGe mt ((p : Int) - (j : Int)) j := by
  unfold suppressedGt suppressedGe
  cases h : mt ((p : Int) - (j : Int)) with
  | none => rfl
  | some r =>
    have hne : r ≠ j := by
      intro hrj
      subst hrj
      exact hinv _ _ h p (by omega) hseed
    exact decide_eq_decide.mpr (by omega)

theorem procBucket_eq {first second : List Byte} {k j : Nat} (hk : 1 ≤ k) :
    ∀ bucket mt, MtInv first second k mt →
      (∀ p ∈ bucket, seedAt first second k p j) →
      procBucketGt first second j bucket mt =
        procBucketGe first second j bucket mt ∧
      MtInv first second k (procBucketGe first second j bucket mt).2 := by
  intro bucket
  induction bucket with
  | nil => intro mt hinv _; exact ⟨rfl, hinv⟩
  | cons p rest ih =>
    intro mt hinv hb
    have hseed := hb p (by simp)
    have hag := suppressed_agree hinv hseed
    simp only [procBucketGt, procBucketGe, hag]
    by_cases hsup : suppressedGe mt ((p : Int) - (j : Int)) j = true
    · rw [if_pos hsup, if_pos hsup]
      exact ih mt hinv (fun x hx => hb x (by simp [hx]))
    · rw [if_neg hsup, if_neg hsup]
      have hinv' := MtInv_insert (p := p) (j := j) hk hinv
      have := ih _ hinv' (fun x hx => hb x (by simp [hx]))
      refine ⟨?_, this.2⟩
      rw [this.1]

theorem drain_eq {first second : List Byte} {k : Nat}
    (hk : 1 ≤ k) (hkA : k ≤ first.length) (hkB : k ≤ second.length) :
    ∀ steps j mt, MtInv first second k mt →
      j + steps ≤ secondLen second k →
      drainGt first second k steps j mt =
        drainGe first second k steps j mt := by
  intro steps
  induction steps with
  | zero => intro j mt _ _; rfl
  | succ steps ih =>
    intro j mt hinv hrange
    have hjB : j + k ≤ second.length := by
      simp only [secondLen] at hrange
      omega
    have hpb := procBucket_eq hk
      (build_map first k (window second j k)) mt hinv
      (bucket_seeds hkA hjB)
    rw [drainGt, drainGe, hpb.1]
    rw [ih (j + 1) _ hpb.2 (by omega)]

/-- C10: on every pair of inputs on which construction succeeds
(`k = size_of::<T>() ≤ |A|, |B|`), the `MatchIterator<T>` of `lib.rs`
(strict suppression `reach > j`) and the `HashMatchIterator<T>` of
`hashmatch.rs` (suppression `reach >= j`) emit identical sequences of
matches: a recorded reach can never equal the cursor of a surviving seed,
because the recorded match stopped right there. -/
theorem C10_lib_and_hashmatch_iterators_agree
    (first second : List Byte) (k : Nat)
    (hk : 1 ≤ k) (hkA : k ≤ first.length) (hkB : k ≤ second.length) :
    matchIterDrain first second k = hashMatchDrain first second k :=
  drain_eq hk hkA hkB (secondLen second k) 0 mtEmpty MtInv_empty (by omega)

theorem C10_witness :
    (1 ≤ 2 ∧ 2 ≤ ([97, 98] : List Byte).length ∧
      2 ≤ ([97, 98, 120, 97, 98] : List Byte).length) ∧
    matchIterDrain [97, 98] [97, 98, 120, 97, 98] 2 =
      hashMatchDrain [97, 98] [97, 98, 120, 97, 98] 2 :=
  ⟨⟨by decide, by decide, by decide⟩,
    C10_lib_and_hashmatch_iterators_agree [97, 98] [97, 98, 120, 97, 98] 2
      (by decide) (by decide) (by decide)⟩

set_option maxRecDepth 100000 in
/-- C1: the claim fails on the code.  The suffix tree that
`treematch.rs::extend_tree` builds for `A = [0,1,0,0,0,0]` is wrong (the
sentinel phase's walk-down updates `active_edge` by `+= edge_length`,
turning a byte value into a wrong slot, so the tree acquires bogus
suffixes `ab$`, `b$` and loses `aa$`, `a$`); consequently
`TreeMatchIterator` with `mml = 1` on `B = [1]` emits the match
`(5, 0, 1)` although `A[5..6] = [0] ≠ [1] = B[0..1]`.  (The HashMatch half
of the claim does hold, see `hashMatchDrain_emit`.) -/
theorem C1_treematch_emits_nonmatching_bytes :
    tmDrainOf [0, 1, 0, 0, 0, 0] [1] 1 500 =
      some [Match.new 1 0 1, Match.new 5 0 1] ∧
    Match.new 5 0 1 ∈ [Match.new 1 0 1, Match.new 5 0 1] ∧
    ¬ matchOk [0, 1, 0, 0, 0, 0] [1] (Match.new 5 0 1) := by
  refine ⟨by decide, by decide, by decide⟩

set_option maxRecDepth 100000 in
/-- C2: the claim fails on the code.  On `A = [0,1,0,0,0,0]`,
`B = [0]` with key width = minimal length = 1, `HashMatchIterator`
emits five matches (among them `(5, 0, 1)`) while `TreeMatchIterator`
emits only four — the defective suffix tree (see `C1`) lost the suffix
`a$`, so no permutation relates the two drains. -/
theorem C2_cross_algorithm_multisets_differ :
    tmDrainOf [0, 1, 0, 0, 0, 0] [0] 1 500 =
      some [Match.new 2 0 1, Match.new 3 0 1, Match.new 0 0 1,
        Match.new 4 0 1] ∧
    hashMatchDrain [0, 1, 0, 0, 0, 0] [0] 1 =
      [Match.new 0 0 1, Match.new 2 0 1, Match.new 3 0 1, Match.new 4 0 1,
        Match.new 5 0 1] ∧
    ¬ ([Match.new 2 0 1, Match.new 3 0 1, Match.new 0 0 1,
        Match.new 4 0 1].Perm
        [Match.new 0 0 1, Match.new 2 0 1, Match.new 3 0 1, Match.new 4 0 1,
          Match.new 5 0 1]) := by
  refine ⟨by decide, by decide, ?_⟩
  intro hperm
  exact absurd hperm.length_eq (by decide)

set_option maxRecDepth 100000 in
/-- C3: the claim fails on the code.  On `A = [0,1,0,0,0,0]`,
`B = [0,0]`, `mml = 1`, `TreeMatchIterator` emits `(4, 0, 1)` even though
`A[5] = 0 = B[1]`: the match extends to `(4, 0, 2)` and is not
right-maximal (the bogus `ab$` leaf of the defective tree freezes
`match_length` at 1).  (The HashMatch half of the claim does hold, see
`hashMatchDrain_emit`.) -/
theorem C3_treematch_emits_non_right_maximal :
    tmDrainOf [0, 1, 0, 0, 0, 0] [0, 0] 1 500 =
      some [Match.new 2 0 2, Match.new 3 0 2, Match.new 0 0 1,
        Match.new 4 0 1, Match.new 2 1 1, Match.new 0 1 1] ∧
    ¬ rightMaximal [0, 1, 0, 0, 0, 0] [0, 0] (Match.new 4 0 1) := by
  refine ⟨by decide, by decide⟩

/-- C4: the claim fails on the code.  `build_map` computes
`first.len() - size_of::<T>() + 1` and `new` computes
`second.len() - size_of::<T>() + 1` on `usize`, which underflows whenever
the input is shorter than the key (debug builds panic on the subtraction;
release builds panic on `unpack().unwrap()` for `|input| + 2 ≤ k`), and
`treematch.rs::extend_tree` reads `data[0]` unconditionally, which panics
on empty input — in all three cases construction does not succeed, against
the claim. -/
theorem C4_small_input_construction_panics :
    hmIterNewChecked [97] [97, 98, 99, 100] 4 = none ∧
    hmIterNewChecked [97, 98, 99, 100] [97] 4 = none ∧
    tmIterNew [] = none := by
  refine ⟨by decide, by decide, rfl⟩

/-! ## `patch_set` invariants (C5) -/

@[simp] theorem new_first_pos (a b c : Nat) : (Match.new a b c).first_pos = a := rfl
@[simp] theorem new_second_pos (a b c : Nat) : (Match.new a b c).second_pos = b := rfl
@[simp] theorem new_length (a b c : Nat) : (Match.new a b c).length = c := rfl
@[simp] theorem new_first_end (a b c : Nat) : (Match.new a b c).first_end = a + c := rfl
@[simp] theorem new_second_end (a b c : Nat) : (Match.new a b c).second_end = b + c := rfl

theorem first_end_eq (m : Match) : m.first_end = m.first_pos + m.length := rfl

theorem second_end_eq (m : Match) : m.second_end = m.second_pos + m.length := rfl

theorem matchOk_pointwise {first second : List Byte} {m : Match}
    (h : matchOk first second m) :
    ∀ t < m.length,
      first.getD (m.first_pos + t) 0 = second.getD (m.second_pos + t) 0 := by
  intro t ht
  have h1 : m.first_pos + m.length ≤ first.length := h.1
  have h2 : m.second_pos + m.length ≤ second.length := h.2.1
  have h3 := h.2.2
  have e1 := window_getD first (i := m.first_pos) ht h1
  have e2 := window_getD second (i := m.second_pos) ht h2
  unfold window at e1 e2
  rw [← e1, ← e2, h3]

/-- Left-trimming a correct match by `ov ≤ length` (incrementing both
positions and decrementing the length, as the `patch_set` loop does)
yields a correct match. -/
theorem matchOk_trim {first second : List Byte} {m : Match} {ov : Nat}
    (h : matchOk first second m) (hov : ov ≤ m.length) :
    matchOk first second
      (Match.new (m.first_pos + ov) (m.second_pos + ov) (m.length - ov)) := by
  have h1 : m.first_pos + m.length ≤ first.length := h.1
  have h2 : m.second_pos + m.length ≤ second.length := h.2.1
  refine ⟨by simp only [new_first_end]; omega,
    by simp only [new_second_end]; omega, ?_⟩
  simp only [new_first_pos, new_second_pos, new_length]
  apply slice_eq_of_pointwise (by omega) (by omega)
  intro t ht
  have hpt := matchOk_pointwise h (ov + t) (by omega)
  have e1 : m.first_pos + ov + t = m.first_pos + (ov + t) := by omega
  have e2 : m.second_pos + ov + t = m.second_pos + (ov + t) := by omega
  rw [e1, e2]
  exact hpt

theorem patchStep_inv {first second : List Byte} {patches : List Match}
    {last m : Match}
    (hp : List.Pairwise (fun a b => a.second_end ≤ b.second_pos)
      (patches ++ [last]))
    (hall : ∀ x ∈ patches ++ [last], 1 ≤ x.length ∧ matchOk first second x)
    (hm1 : 1 ≤ m.length) (hm2 : matchOk first second m) :
    List.Pairwise (fun a b => a.second_end ≤ b.second_pos)
      ((patchStep patches last m).1 ++ [(patchStep patches last m).2]) ∧
    ∀ x ∈ (patchStep patches last m).1 ++ [(patchStep patches last m).2],
      1 ≤ x.length ∧ matchOk first second x := by
  have hlast := hall last (by simp)
  have hrel : ∀ x ∈ patches, x.second_end ≤ last.second_pos := by
    intro x hx
    exact (List.pairwise_append.mp hp).2.2 x hx last (by simp)
  have hppair : List.Pairwise (fun a b => a.second_end ≤ b.second_pos)
      patches := (List.pairwise_append.mp hp).1
  have seL := second_end_eq last
  have seM := second_end_eq m
  unfold patchStep
  by_cases c0 : last.second_end < m.second_end
  · rw [if_pos c0]
    by_cases c1 : m.second_pos = last.second_pos
    · rw [if_pos c1]
      refine ⟨List.pairwise_append.mpr ⟨hppair, by simp, ?_⟩, ?_⟩
      · intro a ha b hb
        simp only [List.mem_singleton] at hb
        subst hb
        have := hrel a ha
        omega
      · intro x hx
        rcases List.mem_append.mp hx with hx | hx
        · exact hall x (by simp [hx])
        · simp only [List.mem_singleton] at hx
          subst hx
          exact ⟨hm1, hm2⟩
    · rw [if_neg c1]
      by_cases c2 : m.second_pos < last.second_pos
      · rw [if_pos c2]
        have hov : last.second_pos - m.second_pos ≤ m.length := by omega
        refine ⟨List.pairwise_append.mpr ⟨hppair, by simp, ?_⟩, ?_⟩
        · intro a ha b hb
          simp only [List.mem_singleton] at hb
          subst hb
          simp only [new_second_pos]
          have := hrel a ha
          omega
        · intro x hx
          rcases List.mem_append.mp hx with hx | hx
          · exact hall x (by simp [hx])
          · simp only [List.mem_singleton] at hx
            subst hx
            refine ⟨by simp only [new_length]; omega, matchOk_trim hm2 hov⟩
      · rw [if_neg c2]
        by_cases c3 : m.second_pos < last.second_end
        · rw [if_pos c3]
          have hov : last.second_end - m.second_pos ≤ m.length := by omega
          refine ⟨List.pairwise_append.mpr ⟨hp, by simp, ?_⟩, ?_⟩
          · intro a ha b hb
            simp only [List.mem_singleton] at hb
            subst hb
            simp only [new_second_pos]
            rcases List.mem_append.mp ha with ha | ha
            · have h1 := hrel a ha
              have h2 := (hall last (by simp)).1
              omega
            · simp only [List.mem_singleton] at ha
              subst ha
              omega
          · intro x hx
            rcases List.mem_append.mp hx with hx | hx
            · exact hall x hx
            · simp only [List.mem_singleton] at hx
              subst hx
              refine ⟨by simp only [new_length]; omega, matchOk_trim hm2 hov⟩
        · rw [if_neg c3]
          refine ⟨List.pairwise_append.mpr ⟨hp, by simp, ?_⟩, ?_⟩
          · intro a ha b hb
            simp only [List.mem_singleton] at hb
            subst hb
            rcases List.mem_append.mp ha with ha | ha
            · have h1 := hrel a ha
              have h2 := (hall last (by simp)).1
              omega
            · simp only [List.mem_singleton] at ha
              subst ha
              omega
          · intro x hx
            rcases List.mem_append.mp hx with hx | hx
            · exact hall x hx
            · simp only [List.mem_singleton] at hx
              subst hx
              exact ⟨hm1, hm2⟩
  · rw [if_neg c0]
    exact ⟨hp, hall⟩

theorem patchGo_inv {first second : List Byte} :
    ∀ (rest : List Match) (patches : List Match) (last : Match),
      (∀ x ∈ rest, 1 ≤ x.length ∧ matchOk first second x) →
      List.Pairwise (fun a b => a.second_end ≤ b.second_pos)
        (patches ++ [last]) →
      (∀ x ∈ patches ++ [last], 1 ≤ x.length ∧ matchOk first second x) →
      List.Pairwise (fun a b => a.second_end ≤ b.second_pos)
        (patchGo rest patches last) ∧
      ∀ x ∈ patchGo rest patches last,
        1 ≤ x.length ∧ matchOk first second x := by
  intro rest
  induction rest with
  | nil => intro patches last _ hp hall; exact ⟨hp, hall⟩
  | cons m rest ih =>
    intro patches last hrest hp hall
    rw [patchGo]
    have hstep := patchStep_inv (m := m) hp hall
      (hrest m (by simp)).1 (hrest m (by simp)).2
    exact ih _ _ (fun x hx => hrest x (by simp [hx])) hstep.1 hstep.2

/-- C5: on inputs where construction succeeds, the patches returned by
`patch_set` are pairwise non-overlapping in `second`, in strictly
ascending order of `second_pos`, and each patch's byte range in `first`
equals its byte range in `second`. -/
theorem C5_patch_set_invariants (first second : List Byte) (k : Nat)
    (hk : 1 ≤ k) (hkA : k ≤ first.length) (hkB : k ≤ second.length) :
    List.Pairwise
      (fun a b => a.second_end ≤ b.second_pos ∧ a.second_pos < b.second_pos)
      (patch_set first second k) ∧
    ∀ m ∈ patch_set first second k, matchOk first second m := by
  have hemit := matchIterDrain_emit hk hkA hkB
  unfold patch_set
  cases hdrain : matchIterDrain first second k with
  | nil => simp
  | cons m rest =>
    rw [hdrain] at hemit
    have hinv := patchGo_inv rest [] m
      (fun x hx => ⟨by have := (hemit x (by simp [hx])).1; omega,
        (hemit x (by simp [hx])).2.1⟩)
      (by simp)
      (fun x hx => by
        simp only [List.nil_append, List.mem_singleton] at hx
        subst hx
        exact ⟨by have := (hemit x (by simp)).1; omega,
          (hemit x (by simp)).2.1⟩)
    refine ⟨?_, fun p hp => (hinv.2 p hp).2⟩
    apply List.Pairwise.imp_of_mem ?_ hinv.1
    intro a b ha _ hab
    have h1 := (hinv.2 a ha).1
    have h2 := second_end_eq a
    exact ⟨hab, by omega⟩

theorem C5_witness :
    ((1 : Nat) ≤ 2 ∧ 2 ≤ ([97, 98, 97, 98] : List Byte).length ∧
      2 ≤ ([97, 98, 120, 97, 98] : List Byte).length) ∧
    (List.Pairwise
      (fun a b => a.second_end ≤ b.second_pos ∧ a.second_pos < b.second_pos)
      (patch_set [97, 98, 97, 98] [97, 98, 120, 97, 98] 2) ∧
    ∀ m ∈ patch_set [97, 98, 97, 98] [97, 98, 120, 97, 98] 2,
      matchOk [97, 98, 97, 98] [97, 98, 120, 97, 98] m) :=
  ⟨⟨by decide, by decide, by decide⟩,
    C5_patch_set_invariants [97, 98, 97, 98] [97, 98, 120, 97, 98] 2
      (by decide) (by decide) (by decide)⟩

/-! ## `longest_common_substrings` (C6) -/

theorem mem_topInsertI (m : Nat × Match) :
    ∀ top y, y ∈ topInsertI m top ↔ y = m ∨ y ∈ top := by
  intro top
  induction top with
  | nil => intro y; simp [topInsertI]
  | cons x xs ih =>
    intro y
    rw [topInsertI]
    split
    · rw [List.mem_cons, ih y, List.mem_cons]
      tauto
    · simp only [List.mem_cons]

theorem topInsertI_length (m : Nat × Match) :
    ∀ top, (topInsertI m top).length = top.length + 1 := by
  intro top
  induction top with
  | nil => rfl
  | cons x xs ih =>
    rw [topInsertI]
    split
    · simp [ih]
    · simp

theorem topInsertI_pairwise {m : Nat × Match} :
    ∀ {top}, List.Pairwise lcssRel top → (∀ x ∈ top, x.1 < m.1) →
      List.Pairwise lcssRel (topInsertI m top) := by
  intro top
  induction top with
  | nil => intro _ _; simp [topInsertI, List.pairwise_singleton]
  | cons x xs ih =>
    intro hp hidx
    rw [topInsertI]
    rw [List.pairwise_cons] at hp
    split
    · rename_i hlen
      rw [List.pairwise_cons]
      refine ⟨?_, ih hp.2 (fun z hz => hidx z (by simp [hz]))⟩
      intro y hy
      rcases (mem_topInsertI m xs y).mp hy with rfl | hy
      · exact Or.inl hlen
      · exact hp.1 y hy
    · rename_i hlen
      refine List.pairwise_cons.mpr
        ⟨?_, List.pairwise_cons.mpr ⟨hp.1, hp.2⟩⟩
      intro y hy
      simp only [List.mem_cons] at hy
      rcases hy with rfl | hy
      · unfold lcssRel
        rcases Nat.lt_or_ge y.2.length m.2.length with h | h
        · exact Or.inl h
        · exact Or.inr ⟨by omega, hidx y (by simp)⟩
      · have hxy := hp.1 y hy
        unfold lcssRel at hxy ⊢
        rcases hxy with h | h
        · rcases Nat.lt_or_ge y.2.length m.2.length with h2 | h2
          · exact Or.inl h2
          · exact Or.inr ⟨by omega, hidx y (by simp [hy])⟩
        · rcases Nat.lt_or_ge y.2.length m.2.length with h2 | h2
          · exact Or.inl h2
          · exact Or.inr ⟨by omega, hidx y (by simp [hy])⟩

theorem lcssGoI_inv {E0 : List (Nat × Match)} (number : Nat) :
    ∀ (ms top : List (Nat × Match)) (thr : Nat) (out : List (Nat × Match)),
      List.Pairwise lcssRel top →
      top.length ≤ number →
      (∀ x ∈ top, x ∈ E0) →
      (∀ x ∈ ms, x ∈ E0) →
      (∀ x ∈ top, ∀ y ∈ ms, x.1 < y.1) →
      List.Pairwise (fun x y => x.1 < y.1) ms →
      lcssGoI number ms (top, thr) = some out →
      List.Pairwise lcssRel out ∧ out.length ≤ number ∧
        ∀ x ∈ out, x ∈ E0 := by
  intro ms
  induction ms with
  | nil =>
    intro top thr out hp hlen hmem _ _ _ hrun
    rw [lcssGoI] at hrun
    simp only [Option.some.injEq] at hrun
    subst hrun
    exact ⟨hp, hlen, hmem⟩
  | cons m rest ih =>
    intro top thr out hp hlen hmem hms hcross hmsp hrun
    rw [lcssGoI] at hrun
    rw [List.pairwise_cons] at hmsp
    split at hrun
    · have hp' : List.Pairwise lcssRel (topInsertI m top) :=
        topInsertI_pairwise hp (fun x hx => hcross x hx m (by simp))
      have hmem' : ∀ x ∈ topInsertI m top, x ∈ E0 := by
        intro x hx
        rcases (mem_topInsertI m top x).mp hx with rfl | hx
        · exact hms x (by simp)
        · exact hmem x hx
      have hcross' : ∀ x ∈ topInsertI m top, ∀ y ∈ rest, x.1 < y.1 := by
        intro x hx y hy
        rcases (mem_topInsertI m top x).mp hx with rfl | hx
        · exact hmsp.1 y hy
        · exact hcross x hx y (by simp [hy])
      split at hrun
      · rename_i hover
        cases hlast : (topInsertI m top).take number |>.getLast? with
        | none => rw [hlast] at hrun; cases hrun
        | some last =>
          rw [hlast] at hrun
          refine ih _ _ _ (hp'.sublist (List.take_sublist _ _))
            (by simp [List.length_take]) ?_
            (fun x hx => hms x (by simp [hx])) ?_ hmsp.2 hrun
          · intro x hx
            exact hmem' x (List.take_sublist _ _ |>.mem hx)
          · intro x hx y hy
            exact hcross' x (List.take_sublist _ _ |>.mem hx) y hy
      · rename_i hover
        exact ih _ _ _ hp' (by omega) hmem'
          (fun x hx => hms x (by simp [hx])) hcross' hmsp.2 hrun
    · exact ih _ _ _ hp hlen hmem
        (fun x hx => hms x (by simp [hx]))
        (fun x hx y hy => hcross x hx y (by simp [hy])) hmsp.2 hrun

theorem topInsertI_map (m : Nat × Match) :
    ∀ top, (topInsertI m top).map Prod.snd = topInsert m.2 (top.map Prod.snd) := by
  intro top
  induction top with
  | nil => rfl
  | cons x xs ih =>
    simp only [topInsertI, topInsert, List.map_cons]
    split
    · simp [ih]
    · simp

theorem lcssGoI_map (number : Nat) :
    ∀ (ms top : List (Nat × Match)) (thr : Nat),
      (lcssGoI number ms (top, thr)).map (List.map Prod.snd) =
        lcssGo number (ms.map Prod.snd) (top.map Prod.snd, thr) := by
  intro ms
  induction ms with
  | nil => intro top thr; rfl
  | cons m rest ih =>
    intro top thr
    simp only [lcssGoI, lcssGo, List.map_cons]
    split
    · have htop := topInsertI_map m top
      have hlen : (topInsert m.2 (top.map Prod.snd)).length =
          (topInsertI m top).length := by
        rw [← htop, List.length_map]
      rw [hlen]
      split
      · have e : List.take number (topInsert m.2 (List.map Prod.snd top)) =
            List.map Prod.snd (List.take number (topInsertI m top)) := by
          rw [← htop, List.map_take]
        rw [e, List.getLast?_map]
        cases hl : (List.take number (topInsertI m top)).getLast? with
        | none => simp
        | some last =>
          simp only [Option.map_some']
          exact ih (List.take number (topInsertI m top)) last.2.length
      · rw [← htop]
        exact ih (topInsertI m top) thr
    · exact ih top thr

/-- C6 counterexample: `longest_common_substrings` is not stable with
respect to the enumerator order.  On `A = "ab"`, `B = "abxab"` with a
2-byte key and `N = 10`, the enumerator emits `(0,0,2)` before `(0,3,2)`
(both of length 2), but the returned list places the later-emitted
`(0,3,2)` first — the insertion scan `top[pos].length > m.length` stops
before existing equal-length entries. -/
theorem C6_counterexample_tie_order :
    matchIterDrain [97, 98] [97, 98, 120, 97, 98] 2 =
      [Match.new 0 0 2, Match.new 0 3 2] ∧
    longest_common_substrings [97, 98] [97, 98, 120, 97, 98] 2 10 =
      some [Match.new 0 3 2, Match.new 0 0 2] ∧
    (Match.new 0 0 2).length = (Match.new 0 3 2).length ∧
    ¬ (([Match.new 0 3 2, Match.new 0 0 2].indexOf (Match.new 0 0 2)) <
        ([Match.new 0 3 2, Match.new 0 0 2].indexOf (Match.new 0 3 2))) := by
  refine ⟨by decide, by decide, by decide, by decide⟩

/-- C6 (amended): whenever `longest_common_substrings` returns (it panics
at `top.last().unwrap()` when `number = 0` and a match arrives), it
returns at most `N` matches sorted by non-increasing length, and among
matches of equal length the match emitted *later* by the enumerator
appears *earlier* in the returned list (so truncation, which drops the
tail, drops the earliest-emitted among the shortest). -/
theorem C6_top_n_sorted_reverse_ties
    (first second : List Byte) (k number : Nat) (out : List Match)
    (hout : longest_common_substrings first second k number = some out) :
    out.length ≤ number ∧
    List.Pairwise (fun a b : Match => b.length ≤ a.length) out ∧
    ∃ ri : List (Nat × Match),
      out = ri.map Prod.snd ∧
      (∀ x ∈ ri, x ∈ (matchIterDrain first second k).enum) ∧
      List.Pairwise lcssRel ri := by
  unfold longest_common_substrings at hout
  set E := matchIterDrain first second k with hE
  have hmap := lcssGoI_map number E.enum [] 0
  rw [List.enum_map_snd] at hmap
  simp only [List.map_nil] at hmap
  rw [hout] at hmap
  obtain ⟨ri, hri, hmapri⟩ := Option.map_eq_some'.mp hmap
  have hidx : List.Pairwise (fun x y : Nat × Match => x.1 < y.1) E.enum := by
    rw [List.pairwise_iff_getElem]
    intro i j hi hj hij
    simp only [List.getElem_enum]
    simpa using hij
  have hinv := @lcssGoI_inv E.enum number E.enum [] 0 ri
    (by simp) (by simp) (by simp) (fun x hx => hx) (by simp) hidx hri
  refine ⟨?_, ?_, ri, hmapri.symm, hinv.2.2, hinv.1⟩
  · rw [← hmapri, List.length_map]
    exact hinv.2.1
  · rw [← hmapri]
    refine List.Pairwise.map Prod.snd (fun a b hab => ?_) hinv.1
    rcases hab with h | h
    · exact Nat.le_of_lt h
    · exact Nat.le_of_eq h.1

theorem C6_witness :
    longest_common_substrings [97, 98] [97, 98, 120, 97, 98] 2 10 =
      some [Match.new 0 3 2, Match.new 0 0 2] ∧
    ([Match.new 0 3 2, Match.new 0 0 2] : List Match).length ≤ 10 ∧
    List.Pairwise (fun a b : Match => b.length ≤ a.length)
      [Match.new 0 3 2, Match.new 0 0 2] ∧
    ∃ ri : List (Nat × Match),
      [Match.new 0 3 2, Match.new 0 0 2] = ri.map Prod.snd ∧
      (∀ x ∈ ri,
        x ∈ (matchIterDrain [97, 98] [97, 98, 120, 97, 98] 2).enum) ∧
      List.Pairwise lcssRel ri := by
  have h : longest_common_substrings [97, 98] [97, 98, 120, 97, 98] 2 10 =
      some [Match.new 0 3 2, Match.new 0 0 2] := by decide
  have := C6_top_n_sorted_reverse_ties [97, 98] [97, 98, 120, 97, 98] 2 10
    [Match.new 0 3 2, Match.new 0 0 2] h
  exact ⟨h, this.1, this.2.1, this.2.2⟩

/-! ## `unique_strings` (C7) -/

set_option maxRecDepth 100000 in
/-- C7: on `first = "abcdefghijklmnopqrstuvwxyz"` and
`second = "abcdef01ghijklmnop3456qrstuvwxyz"` with a 4-byte key (`u32`),
the key-width `unique_strings` returns exactly `[(6, 8), (18, 22)]`, in
that order.  (The general adjustment behaviour the claim describes —
`lo += k - 1` for a terminated range with `lo > 0`, additionally
`hi += k - 1` for the final dangling range, empty ranges dropped — is the
literal content of the embedded loop body `uniqueStep` and of
`uniqueFlush`.) -/
theorem C7_unique_strings_scenario :
    unique_strings
      [97, 98, 99, 100, 101, 102, 103, 104, 105, 106, 107, 108, 109, 110,
        111, 112, 113, 114, 115, 116, 117, 118, 119, 120, 121, 122]
      [97, 98, 99, 100, 101, 102, 48, 49, 103, 104, 105, 106, 107, 108,
        109, 110, 111, 112, 51, 52, 53, 54, 113, 114, 115, 116, 117, 118,
        119, 120, 121, 122]
      4 = [(6, 8), (18, 22)] := by
  decide

/-! ## Reset idempotence (C9) -/

theorem tmNext_ml_depth_irrelevant (first second : List Byte)
    (tree : SuffixTree) (mml : Nat) :
    ∀ (fuel i ml d ml' d' : Nat) (mt : Mt),
      tmNext first second tree mml fuel ⟨i, [], ml, d, mt⟩ =
        tmNext first second tree mml fuel ⟨i, [], ml', d', mt⟩ := by
  intro fuel
  cases fuel with
  | zero => intro _ _ _ _ _ _; rfl
  | succ fuel => intro _ _ _ _ _ _; rfl

/-- C9: for both enumerators, a `reset` puts the iterator into a state
whose remaining drain is exactly the drain of a freshly constructed
iterator — so draining fully, resetting and draining again yields two
identical sequences.  For the hash iterators `reset` restores the start
state outright; for `TreeMatchIterator` it leaves `match_length` and
`depth` stale, but `next()` overwrites both before reading them whenever
the backtrace is empty, which `reset` guarantees. -/
theorem C9_reset_restarts_identically :
    (∀ (first second : List Byte) (k : Nat) (s : HmIterSt),
      hmResume first second k (hmReset s) =
        hmResume first second k hmInitSt) ∧
    (∀ (first second : List Byte) (tree : SuffixTree) (mml fuel : Nat)
      (s : TmIterSt),
      tmDrain first second tree mml fuel (tmReset s) =
        tmDrain first second tree mml fuel tmInitSt) := by
  constructor
  · intro first second k s
    rfl
  · intro first second tree mml fuel s
    induction fuel with
    | zero => rfl
    | succ fuel _ =>
      show tmDrain first second tree mml (fuel + 1)
          ⟨0, [], s.match_length, s.depth, mtEmpty⟩ =
        tmDrain first second tree mml (fuel + 1) ⟨0, [], 0, 0, mtEmpty⟩
      rw [tmDrain, tmDrain,
        tmNext_ml_depth_irrelevant first second tree mml (fuel + 1) 0
          s.match_length s.depth 0 0 mtEmpty]

/-! ## Suffix-tree construction invariant (C8) -/

theorem any_isSome_set {l : List (Option Nat)} {i : Nat} (t : Nat)
    (h : i < l.length) : (l.set i (some t)).any Option.isSome = true := by
  rw [List.any_eq_true]
  refine ⟨some t, ?_, rfl⟩
  have : (l.set i (some t)).get? i = some (some t) :=
    List.get?_set_eq_of_lt (some t) h
  exact List.get?_mem this

theorem any_isSome_set_of_any {l : List (Option Nat)} {i t : Nat}
    (h : l.any Option.isSome = true) :
    (l.set i (some t)).any Option.isSome = true := by
  by_cases hlt : i < l.length
  · exact any_isSome_set t hlt
  · rwa [List.set_eq_of_length_le (by omega)]

theorem nodeOk_addEdge {term : Nat} {v : Node} {slot t : Nat}
    (h : nodeOk term v) :
    nodeOk term { v with edges := v.edges.set slot (some t) } := by
  rcases h with h | h
  · exact Or.inl h
  · exact Or.inr (any_isSome_set_of_any h)

theorem arenaOk_stSetEdge {term : Nat} {ns ns' : List Node} {i slot t : Nat}
    (h : stSetEdge ns i slot t = some ns') (ha : arenaOk term ns) :
    arenaOk term ns' := by
  unfold stSetEdge at h
  cases hn : ns.get? i with
  | none => rw [hn] at h; cases h
  | some n =>
    rw [hn] at h
    simp only [Option.bind_eq_bind, Option.some_bind] at h
    split at h
    · simp only [Option.some.injEq] at h
      subst h
      intro j v hget
      by_cases hij : i = j
      · subst hij
        have hlt : i < ns.length := List.get?_eq_some.mp hn |>.1
        rw [List.get?_set_eq_of_lt _ hlt] at hget
        simp only [Option.some.injEq] at hget
        subst hget
        have := ha i n hn
        exact ⟨by simpa using this.1, nodeOk_addEdge this.2⟩
      · rw [List.get?_set_ne _ _ (by omega)] at hget
        exact ha j v hget
    · cases h

theorem arenaOk_stSetStart {term : Nat} {ns ns' : List Node} {i v0 : Nat}
    (h : stSetStart ns i v0 = some ns') (ha : arenaOk term ns) :
    arenaOk term ns' := by
  unfold stSetStart at h
  cases hn : ns.get? i with
  | none => rw [hn] at h; cases h
  | some n =>
    rw [hn] at h
    simp only [Option.bind_eq_bind, Option.some_bind, Option.some.injEq] at h
    subst h
    intro j v hget
    by_cases hij : i = j
    · subst hij
      have hlt : i < ns.length := List.get?_eq_some.mp hn |>.1
      rw [List.get?_set_eq_of_lt _ hlt] at hget
      simp only [Option.some.injEq] at hget
      subst hget
      have := ha i n hn
      exact ⟨this.1, by
        rcases this.2 with h | h
        · exact Or.inl h
        · exact Or.inr h⟩
    · rw [List.get?_set_ne _ _ (by omega)] at hget
      exact ha j v hget

theorem arenaOk_stSetLink {term : Nat} {ns ns' : List Node} {i t : Nat}
    (h : stSetLink ns i t = some ns') (ha : arenaOk term ns) :
    arenaOk term ns' := by
  unfold stSetLink at h
  cases hn : ns.get? i with
  | none => rw [hn] at h; cases h
  | some n =>
    rw [hn] at h
    simp only [Option.bind_eq_bind, Option.some_bind, Option.some.injEq] at h
    subst h
    intro j v hget
    by_cases hij : i = j
    · subst hij
      have hlt : i < ns.length := List.get?_eq_some.mp hn |>.1
      rw [List.get?_set_eq_of_lt _ hlt] at hget
      simp only [Option.some.injEq] at hget
      subst hget
      have := ha i n hn
      exact ⟨this.1, by
        rcases this.2 with h | h
        · exact Or.inl h
        · exact Or.inr h⟩
    · rw [List.get?_set_ne _ _ (by omega)] at hget
      exact ha j v hget

theorem arenaOk_append {term : Nat} {ns : List Node} {x : Node}
    (ha : arenaOk term ns) (hx : nodeOk term x)
    (hxe : x.edges.length = 257) : arenaOk term (ns ++ [x]) := by
  intro j v hget
  by_cases hj : j < ns.length
  · rw [List.get?_append hj] at hget
    exact ha j v hget
  · have hj2 : j = ns.length := by
      by_contra hne
      have : ns.length + 1 ≤ j := by omega
      rw [List.get?_eq_none.mpr (by simp; omega)] at hget
      cases hget
    subst hj2
    rw [List.get?_concat_length] at hget
    simp only [Option.some.injEq] at hget
    subst hget
    exact ⟨hxe, hx⟩

theorem arenaOkX_push {term : Nat} {ns : List Node} {x : Node}
    (ha : arenaOk term ns) (hxe : x.edges.length = 257) :
    arenaOkX term ns.length (ns ++ [x]) := by
  intro j v hget
  by_cases hj : j < ns.length
  · rw [List.get?_append hj] at hget
    exact ⟨(ha j v hget).1, fun _ => (ha j v hget).2⟩
  · have hj2 : j = ns.length := by
      by_contra hne
      rw [List.get?_eq_none.mpr (by simp; omega)] at hget
      cases hget
    subst hj2
    rw [List.get?_concat_length] at hget
    simp only [Option.some.injEq] at hget
    subst hget
    exact ⟨hxe, fun hc => absurd rfl hc⟩

theorem arenaOkX_stSetEdge {term j : Nat} {ns ns' : List Node}
    {i slot t : Nat} (h : stSetEdge ns i slot t = some ns')
    (ha : arenaOkX term j ns) : arenaOkX term j ns' := by
  unfold stSetEdge at h
  cases hn : ns.get? i with
  | none => rw [hn] at h; cases h
  | some n =>
    rw [hn] at h
    simp only [Option.bind_eq_bind, Option.some_bind] at h
    split at h
    · simp only [Option.some.injEq] at h
      subst h
      intro j' v hget
      by_cases hij : i = j'
      · subst hij
        have hlt : i < ns.length := List.get?_eq_some.mp hn |>.1
        rw [List.get?_set_eq_of_lt _ hlt] at hget
        simp only [Option.some.injEq] at hget
        subst hget
        have := ha i n hn
        exact ⟨by simpa using this.1,
          fun hne => nodeOk_addEdge (this.2 hne)⟩
      · rw [List.get?_set_ne _ _ (by omega)] at hget
        exact ha j' v hget
    · cases h

theorem arenaOkX_stSetStart {term j : Nat} {ns ns' : List Node}
    {i v0 : Nat} (h : stSetStart ns i v0 = some ns')
    (ha : arenaOkX term j ns) : arenaOkX term j ns' := by
  unfold stSetStart at h
  cases hn : ns.get? i with
  | none => rw [hn] at h; cases h
  | some n =>
    rw [hn] at h
    simp only [Option.bind_eq_bind, Option.some_bind, Option.some.injEq] at h
    subst h
    intro j' v hget
    by_cases hij : i = j'
    · subst hij
      have hlt : i < ns.length := List.get?_eq_some.mp hn |>.1
      rw [List.get?_set_eq_of_lt _ hlt] at hget
      simp only [Option.some.injEq] at hget
      subst hget
      have := ha i n hn
      refine ⟨this.1, fun hne => ?_⟩
      rcases this.2 hne with h | h
      · exact Or.inl h
      · exact Or.inr h
    · rw [List.get?_set_ne _ _ (by omega)] at hget
      exact ha j' v hget

theorem arenaOkX_stSetLink {term j : Nat} {ns ns' : List Node}
    {i t : Nat} (h : stSetLink ns i t = some ns')
    (ha : arenaOkX term j ns) : arenaOkX term j ns' := by
  unfold stSetLink at h
  cases hn : ns.get? i with
  | none => rw [hn] at h; cases h
  | some n =>
    rw [hn] at h
    simp only [Option.bind_eq_bind, Option.some_bind, Option.some.injEq] at h
    subst h
    intro j' v hget
    by_cases hij : i = j'
    · subst hij
      have hlt : i < ns.length := List.get?_eq_some.mp hn |>.1
      rw [List.get?_set_eq_of_lt _ hlt] at hget
      simp only [Option.some.injEq] at hget
      subst hget
      have := ha i n hn
      refine ⟨this.1, fun hne => ?_⟩
      rcases this.2 hne with h | h
      · exact Or.inl h
      · exact Or.inr h
    · rw [List.get?_set_ne _ _ (by omega)] at hget
      exact ha j' v hget

theorem arenaOkX_append {term j : Nat} {ns : List Node} {x : Node}
    (ha : arenaOkX term j ns) (hx : nodeOk term x)
    (hxe : x.edges.length = 257) : arenaOkX term j (ns ++ [x]) := by
  intro j' v hget
  by_cases hj : j' < ns.length
  · rw [List.get?_append hj] at hget
    exact ha j' v hget
  · have hj2 : j' = ns.length := by
      by_contra hne
      rw [List.get?_eq_none.mpr (by simp; omega)] at hget
      cases hget
    subst hj2
    rw [List.get?_concat_length] at hget
    simp only [Option.some.injEq] at hget
    subst hget
    exact ⟨hxe, fun _ => hx⟩

/-- Attaching an edge to the exempt node closes the invariant: the node
now has a child. -/
theorem arenaOk_close {term j : Nat} {ns ns' : List Node} {slot t : Nat}
    (h : stSetEdge ns j slot t = some ns') (hslot : slot < 257)
    (ha : arenaOkX term j ns) : arenaOk term ns' := by
  unfold stSetEdge at h
  cases hn : ns.get? j with
  | none => rw [hn] at h; cases h
  | some n =>
    rw [hn] at h
    simp only [Option.bind_eq_bind, Option.some_bind] at h
    rw [if_pos hslot] at h
    simp only [Option.some.injEq] at h
    subst h
    intro j' v hget
    by_cases hij : j = j'
    · subst hij
      have hlt : j < ns.length := List.get?_eq_some.mp hn |>.1
      rw [List.get?_set_eq_of_lt _ hlt] at hget
      simp only [Option.some.injEq] at hget
      subst hget
      have hwf := (ha j n hn).1
      refine ⟨by simpa using hwf, Or.inr ?_⟩
      exact any_isSome_set t (by omega)
    · rw [List.get?_set_ne _ _ (by omega)] at hget
      have := ha j' v hget
      exact ⟨this.1, this.2 (by omega)⟩

theorem optBind_eq_some {α β : Type} {x : Option α} {f : α → Option β} {b : β}
    (h : x >>= f = some b) : ∃ a, x = some a ∧ f a = some b := by
  cases x with
  | none => simp at h
  | some a => exact ⟨a, rfl, by simpa using h⟩

theorem maybeLink_ok {term : Nat} {nodes ns' : List Node} {lnn : Option Nat}
    {tgt : Nat} (h : maybeLink nodes lnn tgt = some ns')
    (ha : arenaOk term nodes) : arenaOk term ns' := by
  unfold maybeLink at h
  cases lnn with
  | some l => exact arenaOk_stSetLink h ha
  | none =>
    simp only [Option.pure_def, Option.some.injEq] at h
    subst h
    exact ha

theorem condLink_ok {term : Nat} {nodes : List Node} {lnn : Option Nat}
    {an : Nat} {out : List Node × Option Nat}
    (h : condLink nodes lnn an = some out) (ha : arenaOk term nodes) :
    arenaOk term out.1 := by
  cases lnn with
  | some l =>
    simp only [condLink] at h
    split at h
    · obtain ⟨ns, hns, h⟩ := optBind_eq_some h
      simp only [Option.pure_def, Option.some.injEq] at h
      subst h
      exact arenaOk_stSetLink hns ha
    · simp only [Option.pure_def, Option.some.injEq] at h
      subst h
      exact ha
  | none =>
    simp only [condLink, Option.pure_def, Option.some.injEq] at h
    subst h
    exact ha

theorem tmMainCore_ok {data : List Byte} {i : Nat} {s1 : BuildSt}
    {r : BuildStep} (h : tmMainCore data i s1 = some r)
    (ha1 : arenaOk data.length s1.nodes) :
    arenaOk data.length r.st.nodes := by
  unfold tmMainCore at h
  obtain ⟨an, han, h⟩ := optBind_eq_some h
  obtain ⟨slotv, hslotv, h⟩ := optBind_eq_some h
  cases slotv with
  | some next_node =>
    obtain ⟨nn, hnn, h⟩ := optBind_eq_some h
    split at h
    · obtain ⟨c, _, h⟩ := optBind_eq_some h
      simp only [Option.pure_def, Option.some.injEq] at h
      subst h
      exact ha1
    · obtain ⟨ce, _, h⟩ := optBind_eq_some h
      obtain ⟨ci, _, h⟩ := optBind_eq_some h
      split at h
      · obtain ⟨nl, hnl, h⟩ := optBind_eq_some h
        simp only [Option.pure_def, Option.some.injEq] at h
        subst h
        exact condLink_ok hnl ha1
      · obtain ⟨nodes1, h1, h⟩ := optBind_eq_some h
        obtain ⟨cs, _, h⟩ := optBind_eq_some h
        obtain ⟨nodes2, h2, h⟩ := optBind_eq_some h
        obtain ⟨csp, _, h⟩ := optBind_eq_some h
        obtain ⟨nodes3, h3, h⟩ := optBind_eq_some h
        obtain ⟨ci2, _, h⟩ := optBind_eq_some h
        obtain ⟨nodes5, h5, h⟩ := optBind_eq_some h
        obtain ⟨nodes6, h6, h⟩ := optBind_eq_some h
        simp only [Option.pure_def, Option.some.injEq] at h
        subst h
        have hx0 : arenaOkX data.length s1.nodes.length
            (s1.nodes ++ [Node.new nn.start (nn.start + s1.active_length)]) :=
          arenaOkX_push ha1 (by simp only [Node.new, List.length_replicate])
        have hx1 := arenaOkX_stSetStart h1 hx0
        have hx2 := arenaOkX_stSetEdge h2 hx1
        have hx3 := arenaOkX_stSetEdge h3 hx2
        have hx4 : arenaOkX data.length s1.nodes.length
            (nodes3 ++ [Node.new i data.length]) :=
          arenaOkX_append hx3 (Or.inl rfl)
            (by simp only [Node.new, List.length_replicate])
        have hok5 : arenaOk data.length nodes5 :=
          arenaOk_close h5 (ci2.isLt.trans (by omega)) hx4
        exact maybeLink_ok h6 hok5
  | none =>
    obtain ⟨nodes1, h1, h⟩ := optBind_eq_some h
    obtain ⟨nodes2, h2, h⟩ := optBind_eq_some h
    simp only [Option.pure_def, Option.some.injEq] at h
    subst h
    exact maybeLink_ok h2
      (arenaOk_stSetEdge h1 (arenaOk_append ha1 (Or.inl rfl)
        (by simp only [Node.new, List.length_replicate])))

theorem tmMainBody_ok {data : List Byte} {i : Nat} {s : BuildSt}
    {r : BuildStep} (h : tmMainBody data i s = some r)
    (ha : arenaOk data.length s.nodes) :
    arenaOk data.length r.st.nodes := by
  unfold tmMainBody at h
  split at h
  · rw [Option.bind_eq_some] at h
    obtain ⟨c, _, h⟩ := h
    exact tmMainCore_ok h ha
  · exact tmMainCore_ok h ha

theorem tmFinalCore_ok {data : List Byte} {s1 : BuildSt}
    {r : BuildStep} (h : tmFinalCore data s1 = some r)
    (ha1 : arenaOk data.length s1.nodes) :
    arenaOk data.length r.st.nodes := by
  unfold tmFinalCore at h
  obtain ⟨an, han, h⟩ := optBind_eq_some h
  obtain ⟨slotv, hslotv, h⟩ := optBind_eq_some h
  cases slotv with
  | some next_node =>
    obtain ⟨nn, hnn, h⟩ := optBind_eq_some h
    split at h
    · simp only [Option.pure_def, Option.some.injEq] at h
      subst h
      exact ha1
    · split at h
      · obtain ⟨nl, hnl, h⟩ := optBind_eq_some h
        simp only [Option.pure_def, Option.some.injEq] at h
        subst h
        exact condLink_ok hnl ha1
      · obtain ⟨nodes1, h1, h⟩ := optBind_eq_some h
        obtain ⟨cs, _, h⟩ := optBind_eq_some h
        obtain ⟨nodes2, h2, h⟩ := optBind_eq_some h
        obtain ⟨csp, _, h⟩ := optBind_eq_some h
        obtain ⟨nodes3, h3, h⟩ := optBind_eq_some h
        obtain ⟨nodes5, h5, h⟩ := optBind_eq_some h
        obtain ⟨nodes6, h6, h⟩ := optBind_eq_some h
        simp only [Option.pure_def, Option.some.injEq] at h
        subst h
        have hx0 : arenaOkX data.length s1.nodes.length
            (s1.nodes ++ [Node.new nn.start (nn.start + s1.active_length)]) :=
          arenaOkX_push ha1 (by simp only [Node.new, List.length_replicate])
        have hx1 := arenaOkX_stSetStart h1 hx0
        have hx2 := arenaOkX_stSetEdge h2 hx1
        have hx3 := arenaOkX_stSetEdge h3 hx2
        have hx4 : arenaOkX data.length s1.nodes.length
            (nodes3 ++ [Node.new data.length data.length]) :=
          arenaOkX_append hx3 (Or.inl rfl)
            (by simp only [Node.new, List.length_replicate])
        have hok5 : arenaOk data.length nodes5 :=
          arenaOk_close h5 (by omega) hx4
        exact maybeLink_ok h6 hok5
  | none =>
    obtain ⟨nodes1, h1, h⟩ := optBind_eq_some h
    obtain ⟨nodes2, h2, h⟩ := optBind_eq_some h
    simp only [Option.pure_def, Option.some.injEq] at h
    subst h
    exact maybeLink_ok h2
      (arenaOk_stSetEdge h1 (arenaOk_append ha1 (Or.inl rfl)
        (by simp only [Node.new, List.length_replicate])))

theorem tmFinalBody_ok {data : List Byte} {s : BuildSt}
    {r : BuildStep} (h : tmFinalBody data s = some r)
    (ha : arenaOk data.length s.nodes) :
    arenaOk data.length r.st.nodes := by
  unfold tmFinalBody at h
  exact tmFinalCore_ok h (by split <;> exact ha)

theorem ukMainCore_ok {data : List Byte} {i : Nat} {s1 : BuildSt}
    {r : BuildStep} (h : ukMainCore data i s1 = some r)
    (ha1 : arenaOk USIZE_MAX s1.nodes) :
    arenaOk USIZE_MAX r.st.nodes := by
  unfold ukMainCore at h
  obtain ⟨an, han, h⟩ := optBind_eq_some h
  obtain ⟨slotv, hslotv, h⟩ := optBind_eq_some h
  cases slotv with
  | some next_node =>
    obtain ⟨nn, hnn, h⟩ := optBind_eq_some h
    split at h
    · obtain ⟨c, _, h⟩ := optBind_eq_some h
      simp only [Option.pure_def, Option.some.injEq] at h
      subst h
      exact ha1
    · obtain ⟨ce, _, h⟩ := optBind_eq_some h
      obtain ⟨ci, _, h⟩ := optBind_eq_some h
      split at h
      · obtain ⟨nl, hnl, h⟩ := optBind_eq_some h
        simp only [Option.pure_def, Option.some.injEq] at h
        subst h
        exact condLink_ok hnl ha1
      · obtain ⟨nodes1, h1, h⟩ := optBind_eq_some h
        obtain ⟨cs, _, h⟩ := optBind_eq_some h
        obtain ⟨nodes2, h2, h⟩ := optBind_eq_some h
        obtain ⟨csp, _, h⟩ := optBind_eq_some h
        obtain ⟨nodes3, h3, h⟩ := optBind_eq_some h
        obtain ⟨ci2, _, h⟩ := optBind_eq_some h
        obtain ⟨nodes5, h5, h⟩ := optBind_eq_some h
        obtain ⟨nodes6, h6, h⟩ := optBind_eq_some h
        simp only [Option.pure_def, Option.some.injEq] at h
        subst h
        have hx0 : arenaOkX USIZE_MAX s1.nodes.length
            (s1.nodes ++ [Node.new nn.start (nn.start + s1.active_length)]) :=
          arenaOkX_push ha1 (by simp only [Node.new, List.length_replicate])
        have hx1 := arenaOkX_stSetStart h1 hx0
        have hx2 := arenaOkX_stSetEdge h2 hx1
        have hx3 := arenaOkX_stSetEdge h3 hx2
        have hx4 : arenaOkX USIZE_MAX s1.nodes.length
            (nodes3 ++ [Node.new i USIZE_MAX]) :=
          arenaOkX_append hx3 (Or.inl rfl)
            (by simp only [Node.new, List.length_replicate])
        have hok5 : arenaOk USIZE_MAX nodes5 :=
          arenaOk_close h5 (ci2.isLt.trans (by omega)) hx4
        exact maybeLink_ok h6 hok5
  | none =>
    obtain ⟨nodes1, h1, h⟩ := optBind_eq_some h
    obtain ⟨nodes2, h2, h⟩ := optBind_eq_some h
    simp only [Option.pure_def, Option.some.injEq] at h
    subst h
    exact maybeLink_ok h2
      (arenaOk_stSetEdge h1 (arenaOk_append ha1 (Or.inl rfl)
        (by simp only [Node.new, List.length_replicate])))

theorem ukMainBody_ok {data : List Byte} {i : Nat} {s : BuildSt}
    {r : BuildStep} (h : ukMainBody data i s = some r)
    (ha : arenaOk USIZE_MAX s.nodes) :
    arenaOk USIZE_MAX r.st.nodes := by
  unfold ukMainBody at h
  split at h
  · rw [Option.bind_eq_some] at h
    obtain ⟨c, _, h⟩ := h
    exact ukMainCore_ok h ha
  · exact ukMainCore_ok h ha

theorem ukFinalCore_ok {data : List Byte} {s1 : BuildSt}
    {r : BuildStep} (h : ukFinalCore data s1 = some r)
    (ha1 : arenaOk USIZE_MAX s1.nodes) :
    arenaOk USIZE_MAX r.st.nodes := by
  unfold ukFinalCore at h
  obtain ⟨an, han, h⟩ := optBind_eq_some h
  obtain ⟨slotv, hslotv, h⟩ := optBind_eq_some h
  cases slotv with
  | some next_node =>
    obtain ⟨nn, hnn, h⟩ := optBind_eq_some h
    split at h
    · simp only [Option.pure_def, Option.some.injEq] at h
      subst h
      exact ha1
    · split at h
      · obtain ⟨nl, hnl, h⟩ := optBind_eq_some h
        simp only [Option.pure_def, Option.some.injEq] at h
        subst h
        exact condLink_ok hnl ha1
      · obtain ⟨nodes1, h1, h⟩ := optBind_eq_some h
        obtain ⟨cs, _, h⟩ := optBind_eq_some h
        obtain ⟨nodes2, h2, h⟩ := optBind_eq_some h
        obtain ⟨csp, _, h⟩ := optBind_eq_some h
        obtain ⟨nodes3, h3, h⟩ := optBind_eq_some h
        obtain ⟨nodes5, h5, h⟩ := optBind_eq_some h
        obtain ⟨nodes6, h6, h⟩ := optBind_eq_some h
        simp only [Option.pure_def, Option.some.injEq] at h
        subst h
        have hx0 : arenaOkX USIZE_MAX s1.nodes.length
            (s1.nodes ++ [Node.new nn.start (nn.start + s1.active_length)]) :=
          arenaOkX_push ha1 (by simp only [Node.new, List.length_replicate])
        have hx1 := arenaOkX_stSetStart h1 hx0
        have hx2 := arenaOkX_stSetEdge h2 hx1
        have hx3 := arenaOkX_stSetEdge h3 hx2
        have hx4 : arenaOkX USIZE_MAX s1.nodes.length
            (nodes3 ++ [Node.new USIZE_MAX USIZE_MAX]) :=
          arenaOkX_append hx3 (Or.inl rfl)
            (by simp only [Node.new, List.length_replicate])
        have hok5 : arenaOk USIZE_MAX nodes5 :=
          arenaOk_close h5 (by omega) hx4
        exact maybeLink_ok h6 hok5
  | none =>
    obtain ⟨nodes1, h1, h⟩ := optBind_eq_some h
    obtain ⟨nodes2, h2, h⟩ := optBind_eq_some h
    simp only [Option.pure_def, Option.some.injEq] at h
    subst h
    exact maybeLink_ok h2
      (arenaOk_stSetEdge h1 (arenaOk_append ha1 (Or.inl rfl)
        (by simp only [Node.new, List.length_replicate])))

theorem ukFinalBody_ok {data : List Byte} {s : BuildSt}
    {r : BuildStep} (h : ukFinalBody data s = some r)
    (ha : arenaOk USIZE_MAX s.nodes) :
    arenaOk USIZE_MAX r.st.nodes := by
  unfold ukFinalBody at h
  exact ukFinalCore_ok h (by split <;> exact ha)

theorem mainEpilogue_nodes {data : List Byte} {i : Nat} {s s' : BuildSt}
    (h : mainEpilogue data i s = some s') : s'.nodes = s.nodes := by
  simp only [mainEpilogue] at h
  split at h
  · obtain ⟨idx, _, h⟩ := optBind_eq_some h
    obtain ⟨c, _, h⟩ := optBind_eq_some h
    simp only [Option.pure_def, Option.some.injEq] at h
    subst h
    rfl
  · split at h
    · obtain ⟨an, _, h⟩ := optBind_eq_some h
      simp only [Option.pure_def, Option.some.injEq] at h
      subst h
      rfl
    · simp only [Option.pure_def, Option.some.injEq] at h
      subst h
      rfl

theorem finalEpilogue_nodes {data : List Byte} {s s' : BuildSt}
    (h : finalEpilogue data s = some s') : s'.nodes = s.nodes := by
  simp only [finalEpilogue] at h
  split at h
  · split at h
    · simp only [Option.pure_def, Option.some.injEq] at h
      subst h
      rfl
    · obtain ⟨idx, _, h⟩ := optBind_eq_some h
      obtain ⟨c, _, h⟩ := optBind_eq_some h
      simp only [Option.pure_def, Option.some.injEq] at h
      subst h
      rfl
  · split at h
    · obtain ⟨an, _, h⟩ := optBind_eq_some h
      simp only [Option.pure_def, Option.some.injEq] at h
      subst h
      rfl
    · simp only [Option.pure_def, Option.some.injEq] at h
      subst h
      rfl

theorem buildLoop_inv {term : Nat} {body : BuildSt → Option BuildStep}
    {epi : BuildSt → Option BuildSt}
    (hbody : ∀ s r, body s = some r →
      arenaOk term s.nodes → arenaOk term r.st.nodes)
    (hepi : ∀ s s', epi s = some s' → s'.nodes = s.nodes) :
    ∀ fuel (s s' : BuildSt), buildLoop body epi fuel s = some s' →
      arenaOk term s.nodes → arenaOk term s'.nodes := by
  intro fuel
  induction fuel with
  | zero =>
    intro s s' h _
    exact Option.noConfusion (show (none : Option BuildSt) = some s' from h)
  | succ n ih =>
    intro s s' h ha
    simp only [buildLoop] at h
    split at h
    · simp only [Option.some.injEq] at h
      subst h
      exact ha
    · obtain ⟨r, hr, h⟩ := optBind_eq_some h
      have har := hbody s r hr ha
      cases r with
      | cont s1 => exact ih s1 s' h har
      | brk s1 =>
        have h2 : some s1 = some s' := h
        cases h2
        exact har
      | fall s1 =>
        obtain ⟨s2, hs2, h2⟩ := optBind_eq_some h
        have hn2 : s2.nodes = s1.nodes := hepi s1 s2 hs2
        exact ih s2 s' h2 (by rw [hn2]; exact har)

theorem tmPhases_inv {data : List Byte} :
    ∀ steps i (s s' : BuildSt), tmPhases data steps i s = some s' →
      arenaOk data.length s.nodes → arenaOk data.length s'.nodes := by
  intro steps
  induction steps with
  | zero =>
    intro i s s' h ha
    have h2 : some s = some s' := h
    cases h2
    exact ha
  | succ n ih =>
    intro i s s' h ha
    simp only [tmPhases] at h
    obtain ⟨s1, hs1, h⟩ := optBind_eq_some h
    have ha1 := buildLoop_inv (fun a b hb hA => tmMainBody_ok hb hA)
      (fun a b hb => mainEpilogue_nodes hb) _ _ _ hs1 ha
    exact ih (i + 1) s1 s' h ha1

theorem ukPhases_inv {data : List Byte} :
    ∀ steps i (s s' : BuildSt), ukPhases data steps i s = some s' →
      arenaOk USIZE_MAX s.nodes → arenaOk USIZE_MAX s'.nodes := by
  intro steps
  induction steps with
  | zero =>
    intro i s s' h ha
    have h2 : some s = some s' := h
    cases h2
    exact ha
  | succ n ih =>
    intro i s s' h ha
    simp only [ukPhases] at h
    obtain ⟨s1, hs1, h⟩ := optBind_eq_some h
    have ha1 := buildLoop_inv (fun a b hb hA => ukMainBody_ok hb hA)
      (fun a b hb => mainEpilogue_nodes hb) _ _ _ hs1 ha
    exact ih (i + 1) s1 s' h ha1

theorem replicate_getD {α : Type} :
    ∀ (n i : Nat) (a d : α), i < n → (List.replicate n a).getD i d = a := by
  intro n
  induction n with
  | zero => intro i a d h; omega
  | succ n ih =>
    intro i a d h
    cases i with
    | zero => rfl
    | succ j => exact ih j a d (by omega)

theorem rootArena_ok (c0 : Byte) {e term : Nat} (he : e = term) :
    arenaOk term (rootArena c0 e) := by
  intro j v hget
  match j with
  | 0 =>
    have h2 : some { start := 0, end_ := 0,
                     edges := (List.replicate 257 (none : Option Nat)).set
                       c0.val (some 1),
                     suffix_link := none } = some v := hget
    cases h2
    refine ⟨by simp only [List.length_set, List.length_replicate], Or.inr ?_⟩
    exact any_isSome_set 1
      (by simpa only [List.length_replicate] using c0.isLt.trans (by omega))
  | 1 =>
    have h2 : some (Node.new 0 e) = some v := hget
    cases h2
    exact ⟨by simp only [Node.new, List.length_replicate], Or.inl he⟩
  | (n + 2) => exact Option.noConfusion hget

set_option maxRecDepth 40000 in
theorem tmFirstBody (c0 : Byte) (rest : List Byte) (ae rs : Nat) :
    tmMainBody (c0 :: rest) 0
      { nodes := [Node.new 0 0], last_new_node := none, active_node := 0,
        active_length := 0, active_edge := ae, remaining_suffix := rs } =
    some (BuildStep.fall
      { nodes := rootArena c0 (c0 :: rest).length, last_new_node := none,
        active_node := 0, active_length := 0, active_edge := c0.val,
        remaining_suffix := rs }) := by
  have h257 : c0.val < 257 := c0.isLt.trans (by omega)
  simp [tmMainBody, tmMainCore, edgeSlot?, stSetEdge, maybeLink, rootArena,
    Node.new, h257, replicate_getD, -List.replicate_succ,
    -List.reduceReplicate]

set_option maxRecDepth 40000 in
theorem ukFirstBody (c0 : Byte) (rest : List Byte) (ae rs : Nat) :
    ukMainBody (c0 :: rest) 0
      { nodes := [Node.new 0 0], last_new_node := none, active_node := 0,
        active_length := 0, active_edge := ae, remaining_suffix := rs } =
    some (BuildStep.fall
      { nodes := rootArena c0 USIZE_MAX, last_new_node := none,
        active_node := 0, active_length := 0, active_edge := c0.val,
        remaining_suffix := rs }) := by
  have h257 : c0.val < 257 := c0.isLt.trans (by omega)
  simp [ukMainBody, ukMainCore, edgeSlot?, stSetEdge, maybeLink, rootArena,
    Node.new, h257, replicate_getD, -List.replicate_succ,
    -List.reduceReplicate]

theorem tmExtendTree_ok {data : List Byte} {s : BuildSt}
    (h : tmExtendTree data = some s) : arenaOk data.length s.nodes := by
  cases data with
  | nil => exact Option.noConfusion (show (none : Option BuildSt) = some s from h)
  | cons c0 rest =>
    unfold tmExtendTree at h
    obtain ⟨c0', hc0, h⟩ := optBind_eq_some h
    have hc : some c0 = some c0' := hc0
    cases hc
    obtain ⟨s1, hs1, h⟩ := optBind_eq_some h
    rw [show (c0 :: rest).length = rest.length + 1 from rfl] at hs1
    simp only [tmPhases] at hs1
    obtain ⟨sA, hsA, hs1⟩ := optBind_eq_some hs1
    obtain ⟨m, hm⟩ : ∃ k, buildFuel (c0 :: rest).length = k + 1 :=
      Nat.exists_eq_succ_of_ne_zero (by unfold buildFuel; omega)
    rw [hm] at hsA
    obtain ⟨r, hr, hsA⟩ := optBind_eq_some hsA
    have hr' : tmMainBody (c0 :: rest) 0
        { nodes := [Node.new 0 0], last_new_node := none, active_node := 0,
          active_length := 0, active_edge := c0.val,
          remaining_suffix := 0 + 1 } = some r := hr
    rw [tmFirstBody c0 rest c0.val (0 + 1)] at hr'
    have hrr : r = BuildStep.fall
        { nodes := rootArena c0 (c0 :: rest).length, last_new_node := none,
          active_node := 0, active_length := 0, active_edge := c0.val,
          remaining_suffix := 0 + 1 } := by
      cases hr'
      rfl
    subst hrr
    obtain ⟨s2, hs2, hsA⟩ := optBind_eq_some hsA
    have hn2 := mainEpilogue_nodes hs2
    have haA : arenaOk (c0 :: rest).length sA.nodes :=
      buildLoop_inv (fun a b hb hA => tmMainBody_ok hb hA)
        (fun a b hb => mainEpilogue_nodes hb) m s2 sA hsA
        (by rw [hn2]; exact rootArena_ok c0 rfl)
    have ha1 : arenaOk (c0 :: rest).length s1.nodes :=
      tmPhases_inv rest.length (0 + 1) sA s1 hs1 haA
    exact buildLoop_inv (fun a b hb hA => tmFinalBody_ok hb hA)
      (fun a b hb => finalEpilogue_nodes hb) _ _ _ h ha1

theorem ukExtendTree_ok {data : List Byte} {s : BuildSt}
    (h : ukExtendTree data = some s) : arenaOk USIZE_MAX s.nodes := by
  cases data with
  | nil => exact Option.noConfusion (show (none : Option BuildSt) = some s from h)
  | cons c0 rest =>
    unfold ukExtendTree at h
    obtain ⟨c0', hc0, h⟩ := optBind_eq_some h
    have hc : some c0 = some c0' := hc0
    cases hc
    obtain ⟨s1, hs1, h⟩ := optBind_eq_some h
    rw [show (c0 :: rest).length = rest.length + 1 from rfl] at hs1
    simp only [ukPhases] at hs1
    obtain ⟨sA, hsA, hs1⟩ := optBind_eq_some hs1
    obtain ⟨m, hm⟩ : ∃ k, buildFuel (c0 :: rest).length = k + 1 :=
      Nat.exists_eq_succ_of_ne_zero (by unfold buildFuel; omega)
    rw [hm] at hsA
    obtain ⟨r, hr, hsA⟩ := optBind_eq_some hsA
    have hr' : ukMainBody (c0 :: rest) 0
        { nodes := [Node.new 0 0], last_new_node := none, active_node := 0,
          active_length := 0, active_edge := c0.val,
          remaining_suffix := 0 + 1 } = some r := hr
    rw [ukFirstBody c0 rest c0.val (0 + 1)] at hr'
    have hrr : r = BuildStep.fall
        { nodes := rootArena c0 USIZE_MAX, last_new_node := none,
          active_node := 0, active_length := 0, active_edge := c0.val,
          remaining_suffix := 0 + 1 } := by
      cases hr'
      rfl
    subst hrr
    obtain ⟨s2, hs2, hsA⟩ := optBind_eq_some hsA
    have hn2 := mainEpilogue_nodes hs2
    have haA : arenaOk USIZE_MAX sA.nodes :=
      buildLoop_inv (fun a b hb hA => ukMainBody_ok hb hA)
        (fun a b hb => mainEpilogue_nodes hb) m s2 sA hsA
        (by rw [hn2]; exact rootArena_ok c0 rfl)
    have ha1 : arenaOk USIZE_MAX s1.nodes :=
      ukPhases_inv rest.length (0 + 1) sA s1 hs1 haA
    exact buildLoop_inv (fun a b hb hA => ukFinalBody_ok hb hA)
      (fun a b hb => finalEpilogue_nodes hb) _ _ _ h ha1

theorem nodeOk_childless {term : Nat} {v : Node} (h : nodeOk term v)
    (hz : v.edges.all Option.isNone = true) : v.end_ = term := by
  rcases h with h | h
  · exact h
  · rcases List.any_eq_true.mp h with ⟨x, hx, hs⟩
    have hn := List.all_eq_true.mp hz x hx
    cases x with
    | none => exact absurd hs (by simp)
    | some a => exact absurd hn (by simp)

set_option maxRecDepth 100000 in
/-- C8 counterexample: on `A = [0]`, `ukkonen.rs`'s `SuffixTree::new`
produces a childless node whose `end` is neither `|A| = 1` nor paired with
`start = end = 1` — its leaves keep the creation value `end = usize::MAX`,
so the claimed post-construction leaf convention fails for `ukkonen.rs`. -/
theorem C8_counterexample_ukkonen_sentinel_end :
    (ukNew [0]).map (fun t => t.nodes.any (fun v =>
      v.edges.all Option.isNone &&
      !(v.end_ == 1) && !(v.start == 1 && v.end_ == 1))) = some true := by
  decide

/-- C8 (amended): after `SuffixTree::new(A)` on non-empty `A`, every
childless node of the `treematch.rs` tree has `end = |A|` (this covers
both the real leaves and the sentinel leaf, which is created as
`(|A|, |A|)`), while every childless node of the `ukkonen.rs` tree instead
keeps its creation sentinel `end = usize::MAX`.  Proof: the arena
invariant `arenaOk` — every node has the full 257-slot edge array and
either carries the terminal `end` value or has a child — is established by
the first loop iteration and preserved by every loop body and epilogue of
both constructions. -/
theorem C8_childless_end_convention (A : List Byte) (hA : A ≠ []) :
    (∀ t, tmNew A = some t → ∀ v ∈ t.nodes,
      v.edges.all Option.isNone = true → v.end_ = A.length) ∧
    (∀ t, ukNew A = some t → ∀ v ∈ t.nodes,
      v.edges.all Option.isNone = true → v.end_ = USIZE_MAX) := by
  constructor
  · intro t ht v hv hz
    unfold tmNew at ht
    obtain ⟨s, hs, ht⟩ := optBind_eq_some ht
    have ht2 : some ({ nodes := s.nodes } : SuffixTree) = some t := ht
    cases ht2
    have ha := tmExtendTree_ok hs
    obtain ⟨i, hi⟩ := List.mem_iff_get?.mp hv
    exact nodeOk_childless ((ha i v hi).2) hz
  · intro t ht v hv hz
    unfold ukNew at ht
    obtain ⟨s, hs, ht⟩ := optBind_eq_some ht
    have ht2 : some ({ nodes := s.nodes } : SuffixTree) = some t := ht
    cases ht2
    have ha := ukExtendTree_ok hs
    obtain ⟨i, hi⟩ := List.mem_iff_get?.mp hv
    exact nodeOk_childless ((ha i v hi).2) hz

/-- C8 witness: the amended theorem applied at the concrete input
`A = [0]`. -/
theorem C8_witness :
    ([0] : List Byte) ≠ [] ∧
    ((∀ t, tmNew [0] = some t → ∀ v ∈ t.nodes,
      v.edges.all Option.isNone = true → v.end_ = ([0] : List Byte).length) ∧
     (∀ t, ukNew [0] = some t → ∀ v ∈ t.nodes,
      v.edges.all Option.isNone = true → v.end_ = USIZE_MAX)) :=
  ⟨by decide, C8_childless_end_convention [0] (by decide)⟩

end Bcmp
